import Mathlib

/-!
Verification development for the REST index store of a blockchain full node
(`crates/sui-core/src/rest_index.rs`).

The development shallowly embeds the two derived tables (`transactions` and
`owner`), the staged-batch write model of the underlying key-value store, and
the four operations of `IndexStoreTables`: `is_empty`, `init` (bootstrap),
`prune`, and `index_checkpoint`, together with the `RestIndexStore` facade
(`new`, `new_without_init`).  Checkpoint effects are replayed against an
abstract live-object map in order to state the owner-index correctness
invariants.
-/

namespace RestIndex

/-! ### Basic identifier types -/

abbrev SuiAddress := Nat
abbrev ObjectID := Nat
abbrev SequenceNumber := Nat
abbrev MoveObjectType := Nat
abbrev TransactionDigest := Nat
abbrev ContentDigest := Nat

/-- Ownership kinds of an object (`sui_types::object::Owner`). -/
inductive Owner where
  | AddressOwner (addr : SuiAddress)
  | ObjectOwner (obj : ObjectID)
  | Shared
  | Immutable
deriving DecidableEq, Repr

/-- An object as exposed to the indexer: id, version, Move type (`none` for a
package, which has no Move type), and owner. -/
structure Object where
  id : ObjectID
  version : SequenceNumber
  type_ : Option MoveObjectType
  owner : Owner
deriving DecidableEq, Repr

/-! ### Index schema -/

/-- Key of the owner table: `OwnerIndexKey { owner, object_id }`. -/
structure OwnerIndexKey where
  owner : SuiAddress
  object_id : ObjectID
deriving DecidableEq, Repr

def OwnerIndexKey.new (owner : SuiAddress) (object_id : ObjectID) : OwnerIndexKey :=
  ⟨owner, object_id⟩

/-- Value of the owner table: `OwnerIndexInfo { version, type_ }`. -/
structure OwnerIndexInfo where
  version : SequenceNumber
  type_ : MoveObjectType
deriving DecidableEq, Repr

/-- Models `OwnerIndexInfo::new`.  The source unwraps
`object.type_().expect("packages cannot be owned")`; the panic on a package
(an object with no Move type) is modeled as `none`. -/
def OwnerIndexInfo.new? (object : Object) : Option OwnerIndexInfo :=
  object.type_.map fun t => ⟨object.version, t⟩

/-- Value of the transactions table: `TransactionInfo { checkpoint }`. -/
structure TransactionInfo where
  checkpoint : Nat
deriving DecidableEq, Repr

abbrev TransactionsTable := Finmap fun _ : TransactionDigest => TransactionInfo
abbrev OwnerTable := Finmap fun _ : OwnerIndexKey => OwnerIndexInfo

/-- The two RocksDB tables of `IndexStoreTables`. -/
structure IndexStoreTables where
  transactions : TransactionsTable
  owner : OwnerTable
deriving DecidableEq

/-- Both tables start empty at first open. -/
def emptyTables : IndexStoreTables := ⟨∅, ∅⟩

/-! ### Staged batch writes

A RocksDB write batch stages insertions and deletions against either table and
applies them in staging order on `write`. -/

inductive BatchOp where
  | insertTx (digest : TransactionDigest) (info : TransactionInfo)
  | deleteTx (digest : TransactionDigest)
  | insertOwner (key : OwnerIndexKey) (info : OwnerIndexInfo)
  | deleteOwner (key : OwnerIndexKey)
deriving DecidableEq, Repr

def applyOp (s : IndexStoreTables) : BatchOp → IndexStoreTables
  | .insertTx d i => { s with transactions := s.transactions.insert d i }
  | .deleteTx d => { s with transactions := s.transactions.erase d }
  | .insertOwner k v => { s with owner := s.owner.insert k v }
  | .deleteOwner k => { s with owner := s.owner.erase k }

/-- Committing a staged batch: apply its operations in order. -/
def applyBatch (s : IndexStoreTables) (b : List BatchOp) : IndexStoreTables :=
  b.foldl applyOp s

/-! ### Checkpoint input data -/

structure CheckpointSummary where
  sequence_number : Nat
  content_digest : ContentDigest
deriving DecidableEq, Repr

/-- Checkpoint contents: the ordered list of transaction digests. -/
abbrev CheckpointContents := List TransactionDigest

/-- Per-transaction object-level effects as exposed by `CheckpointData`:
`removed_objects` and `changed_objects` (the changed object paired with its
prior state, if any). -/
structure TransactionData where
  removed_objects : List Object
  changed_objects : List (Object × Option Object)
deriving DecidableEq, Repr

structure CheckpointData where
  checkpoint_summary : CheckpointSummary
  checkpoint_contents : CheckpointContents
  transactions : List TransactionData
deriving DecidableEq, Repr

/-- Errors surfaced by the embedded operations: a missing-data error during
bootstrap, the modeled `expect` panic for an address-owned package, and an
injected batch-write failure of the storage engine. -/
inductive IndexError where
  | missingData (seq : Nat)
  | panicPackageOwned
  | writeFailed
deriving DecidableEq, Repr

/-! ### List helpers (kept self-contained for easy induction) -/

def catMapL (f : α → List β) : List α → List β
  | [] => []
  | a :: l => f a ++ catMapL f l

def mapOpt (f : α → Option β) : List α → Option (List β)
  | [] => some []
  | a :: l =>
    match f a with
    | none => none
    | some b =>
      match mapOpt f l with
      | none => none
      | some bs => some (b :: bs)

/-! ### Checkpoint indexing (`IndexStoreTables::index_checkpoint`) -/

/-- A single object-level owner-index step, in the order the source visits
them: all removed objects of a transaction, then all changed objects. -/
inductive TxOp where
  | removed (object : Object)
  | changed (object : Object) (old_object : Option Object)
deriving DecidableEq, Repr

def txOps (tx : TransactionData) : List TxOp :=
  tx.removed_objects.map .removed ++ tx.changed_objects.map fun p => .changed p.1 p.2

def ckptOps (c : CheckpointData) : List TxOp :=
  catMapL txOps c.transactions

/-- Owner-index batch operations staged for one removed object
(rest_index.rs, the `removed_objects` loop): delete the key when the removed
object was address-owned, nothing otherwise. -/
def removedObjectOps (object : Object) : List BatchOp :=
  match object.owner with
  | .AddressOwner address => [.deleteOwner (OwnerIndexKey.new address object.id)]
  | _ => []

/-- Owner-index batch operations staged for one changed object
(rest_index.rs, the `changed_objects` loop): delete the prior key when the
owner changed away from an address owner, then insert the new key when the
current owner is an address.  `none` models the `expect` panic inside
`OwnerIndexInfo::new` when the current owner is an address but the object is
a package. -/
def changedObjectOps (object : Object) (old_object : Option Object) : Option (List BatchOp) :=
  let deletes : List BatchOp :=
    match old_object with
    | some old =>
      if old.owner ≠ object.owner then
        match old.owner with
        | .AddressOwner address => [.deleteOwner (OwnerIndexKey.new address old.id)]
        | _ => []
      else []
    | none => []
  match object.owner with
  | .AddressOwner owner =>
    match OwnerIndexInfo.new? object with
    | some owner_info =>
      some (deletes ++ [.insertOwner (OwnerIndexKey.new owner object.id) owner_info])
    | none => none
  | _ => some deletes

def ownerOpsOfTxOp : TxOp → Option (List BatchOp)
  | .removed object => some (removedObjectOps object)
  | .changed object old_object => changedObjectOps object old_object

/-- Transaction-index insertions staged for a checkpoint: every digest of the
contents maps to the checkpoint's sequence number. -/
def txInsertOps (c : CheckpointData) : List BatchOp :=
  c.checkpoint_contents.map fun d => .insertTx d ⟨c.checkpoint_summary.sequence_number⟩

/-- The complete staged batch of `index_checkpoint`: transaction-index
insertions followed by owner-index updates for every transaction in order.
`none` models the staging-time panic. -/
def indexCheckpointBatch (c : CheckpointData) : Option (List BatchOp) :=
  match mapOpt ownerOpsOfTxOp (ckptOps c) with
  | none => none
  | some bss => some (txInsertOps c ++ catMapL id bss)

/-- Runs `index_checkpoint` with an injectable batch-write outcome.  Returns
the call's result together with the visible table state afterwards: staging a
batch mutates nothing, a failed `batch.write()` mutates nothing, and a
successful write makes the whole batch visible at once. -/
def index_checkpoint_run (writeOk : Bool) (s : IndexStoreTables) (c : CheckpointData) :
    Except IndexError IndexStoreTables × IndexStoreTables :=
  match indexCheckpointBatch c with
  | none => (.error .panicPackageOwned, s)
  | some b =>
    if writeOk then
      (.ok (applyBatch s b), applyBatch s b)
    else
      (.error .writeFailed, s)

/-- Models `IndexStoreTables::index_checkpoint` (batch write succeeding). -/
def IndexStoreTables.index_checkpoint (s : IndexStoreTables) (c : CheckpointData) :
    Except IndexError IndexStoreTables :=
  (index_checkpoint_run true s c).1

/-! ### Pruning (`IndexStoreTables::prune`) -/

/-- Models `IndexStoreTables::prune`: delete, in one batch, every transaction
digest contained in the checkpoint contents passed in. -/
def IndexStoreTables.prune (s : IndexStoreTables)
    (checkpoint_contents_to_prune : List CheckpointContents) : IndexStoreTables :=
  applyBatch s ((catMapL id checkpoint_contents_to_prune).map .deleteTx)

/-! ### Emptiness check (`IndexStoreTables::is_empty`) -/

/-- Models `IndexStoreTables::is_empty`: only the transactions table is
inspected. -/
def IndexStoreTables.is_empty (s : IndexStoreTables) : Bool :=
  decide (s.transactions = ∅)

/-! ### Bootstrap (`IndexStoreTables::init`) -/

/-- The checkpoint store as consumed by `init`: watermarks plus lookup of
summaries by sequence number and of contents by content digest. -/
structure CheckpointStore where
  highest_executed : Option Nat
  highest_pruned : Nat
  summary_of : Nat → Option CheckpointSummary
  contents_of : ContentDigest → Option CheckpointContents

/-- The live-object snapshot yielded by
`authority_store.iter_live_object_set(false).filter_map(LiveObject::to_normal)`. -/
abbrev AuthorityStore := List Object

/-- Inclusive range of checkpoint sequence numbers backfilled by `init`:
`lowest_available..=highest_executed`, empty when nothing has executed. -/
def seqRange (store : CheckpointStore) : List Nat :=
  match store.highest_executed with
  | none => []
  | some highest => List.range' store.highest_pruned (highest + 1 - store.highest_pruned)

/-- The transaction-backfill loop of `init`: for each sequence number fetch
the summary and its contents (a missing-data error if either is absent) and
stage `digest → TransactionInfo { checkpoint: summary.sequence_number }` for
every digest of the contents. -/
def backfillOps (store : CheckpointStore) : List Nat → Except IndexError (List BatchOp)
  | [] => .ok []
  | seq :: rest =>
    match store.summary_of seq with
    | none => .error (.missingData seq)
    | some checkpoint =>
      match store.contents_of checkpoint.content_digest with
      | none => .error (.missingData seq)
      | some contents =>
        match backfillOps store rest with
        | .error e => .error e
        | .ok ops =>
          .ok ((contents.map fun d => .insertTx d ⟨checkpoint.sequence_number⟩) ++ ops)

/-- The live-object loop of `init`: each address-owned object is inserted into
the owner table as its own immediate batch; an address-owned package triggers
the modeled panic. -/
def initOwnerLoop (s : IndexStoreTables) : List Object → Except IndexError IndexStoreTables
  | [] => .ok s
  | object :: rest =>
    match object.owner with
    | .AddressOwner owner =>
      match OwnerIndexInfo.new? object with
      | some owner_info =>
        initOwnerLoop
          (applyBatch s [.insertOwner (OwnerIndexKey.new owner object.id) owner_info]) rest
      | none => .error .panicPackageOwned
    | _ => initOwnerLoop s rest

/-- Models `IndexStoreTables::init`: backfill the transaction index over the
retained checkpoint range as one batch, then populate the owner index from
the live-object snapshot. -/
def IndexStoreTables.init (s : IndexStoreTables) (authority_store : AuthorityStore)
    (checkpoint_store : CheckpointStore) : Except IndexError IndexStoreTables :=
  match backfillOps checkpoint_store (seqRange checkpoint_store) with
  | .error e => .error e
  | .ok ops => initOwnerLoop (applyBatch s ops) authority_store

/-! ### Facade (`RestIndexStore`) -/

structure RestIndexStore where
  tables : IndexStoreTables
deriving DecidableEq

/-- Models `RestIndexStore::new`: open the tables (their on-disk content is
the `on_disk` argument) and bootstrap exactly when the index is empty.  The
source unwraps `init`'s result; the error is propagated here. -/
def RestIndexStore.new (on_disk : IndexStoreTables) (authority_store : AuthorityStore)
    (checkpoint_store : CheckpointStore) : Except IndexError RestIndexStore :=
  if on_disk.is_empty then
    match on_disk.init authority_store checkpoint_store with
    | .error e => .error e
    | .ok tables => .ok ⟨tables⟩
  else
    .ok ⟨on_disk⟩

/-- Models `RestIndexStore::new_without_init`: open the tables with no
initialization check. -/
def RestIndexStore.new_without_init (on_disk : IndexStoreTables) : RestIndexStore :=
  ⟨on_disk⟩

def RestIndexStore.is_empty (s : RestIndexStore) : Bool :=
  s.tables.is_empty

def RestIndexStore.prune (s : RestIndexStore)
    (checkpoint_contents_to_prune : List CheckpointContents) : RestIndexStore :=
  ⟨s.tables.prune checkpoint_contents_to_prune⟩

def RestIndexStore.index_checkpoint (s : RestIndexStore) (c : CheckpointData) :
    Except IndexError RestIndexStore :=
  match s.tables.index_checkpoint c with
  | .error e => .error e
  | .ok tables => .ok ⟨tables⟩

/-! ### Replay model of the primary store's live-object state -/

abbrev ObjMap := Finmap fun _ : ObjectID => Object

/-- Effect of one object-level step on the live-object state: a removed object
disappears, a changed object is stored under its id. -/
def stateStep (L : ObjMap) : TxOp → ObjMap
  | .removed object => L.erase object.id
  | .changed object _ => L.insert object.id object

def applyOps (L : ObjMap) (ops : List TxOp) : ObjMap :=
  ops.foldl stateStep L

def applyCkptState (L : ObjMap) (c : CheckpointData) : ObjMap :=
  applyOps L (ckptOps c)

def replayCkpts (L : ObjMap) (cs : List CheckpointData) : ObjMap :=
  cs.foldl applyCkptState L

/-- One object-level step is consistent with the evolving live-object state:
a removed object is exactly the stored one; a changed object's reported prior
state is exactly the stored state under its id (and carries the same id). -/
def opConsistent (L : ObjMap) : TxOp → Bool
  | .removed object => decide (L.lookup object.id = some object)
  | .changed object old_object =>
    decide (L.lookup object.id = old_object) &&
      old_object.all fun old => decide (old.id = object.id)

def opsConsistent : ObjMap → List TxOp → Bool
  | _, [] => true
  | L, op :: rest => opConsistent L op && opsConsistent (stateStep L op) rest

def ckptConsistent (L : ObjMap) (c : CheckpointData) : Bool :=
  opsConsistent L (ckptOps c)

def ckptsConsistent : ObjMap → List CheckpointData → Bool
  | _, [] => true
  | L, c :: rest => ckptConsistent L c && ckptsConsistent (applyCkptState L c) rest

/-- Applying a list of checkpoints in order through `index_checkpoint`. -/
def runCkpts (s : IndexStoreTables) : List CheckpointData → Except IndexError IndexStoreTables
  | [] => .ok s
  | c :: rest =>
    match s.index_checkpoint c with
    | .error e => .error e
    | .ok s1 => runCkpts s1 rest

/-- The owner-index entry demanded by the specification for a key, derived
from the live-object state: present iff the object is live and currently
owned by exactly that address, carrying the object's version and type. -/
def expectedOwnerEntry (L : ObjMap) (key : OwnerIndexKey) : Option OwnerIndexInfo :=
  match L.lookup key.object_id with
  | some object =>
    if object.owner = Owner.AddressOwner key.owner then OwnerIndexInfo.new? object else none
  | none => none

/-- The specification's owner-index invariant: every key holds exactly the
entry derivable from the live-object state. -/
def OwnerInv (own : OwnerTable) (L : ObjMap) : Prop :=
  ∀ key : OwnerIndexKey, own.lookup key = expectedOwnerEntry L key

/-- Well-formedness of a live-object state reachable by replay: objects are
stored under their own id, and an address-owned object has a Move type. -/
def StateWF (L : ObjMap) : Prop :=
  ∀ i object, L.lookup i = some object →
    object.id = i ∧
      ∀ a, object.owner = Owner.AddressOwner a → (OwnerIndexInfo.new? object).isSome = true

def isOkE : Except IndexError α → Bool
  | .ok _ => true
  | .error _ => false

/-- Bool test used to state the bootstrap missing-data behaviour: the summary
for `seq`, or the contents it points to, is absent from the checkpoint
store. -/
def missingAtB (store : CheckpointStore) (seq : Nat) : Bool :=
  match store.summary_of seq with
  | none => true
  | some cp => (store.contents_of cp.content_digest).isNone

def firstMissing (store : CheckpointStore) : List Nat → Option Nat
  | [] => none
  | seq :: rest => if missingAtB store seq then some seq else firstMissing store rest

/-- Modelled from the spec: the transaction-index insertions the bootstrap is
required to stage, `digest → (checkpoint_sequence_number)` keyed by the loop's
own sequence number, for every retained checkpoint. -/
def backfillSpecOps (store : CheckpointStore) : List BatchOp :=
  catMapL
    (fun seq =>
      match store.summary_of seq with
      | some cp =>
        match store.contents_of cp.content_digest with
        | some contents => contents.map fun d => .insertTx d ⟨seq⟩
        | none => []
      | none => [])
    (seqRange store)

/-- A checkpoint store holding exactly the checkpoints `cs`, numbered by
position, with nothing pruned. -/
def storeOfCkpts (cs : List CheckpointData) : CheckpointStore where
  highest_executed := match cs with | [] => none | _ => some (cs.length - 1)
  highest_pruned := 0
  summary_of := fun seq => cs[seq]?.map (·.checkpoint_summary)
  contents_of := fun d =>
    (cs.find? fun c => decide (c.checkpoint_summary.content_digest = d)).map
      (·.checkpoint_contents)

end RestIndex

deriving instance DecidableEq for Except

namespace RestIndex

/-! ## Batch application: basic lemmas -/

theorem applyBatch_nil (s : IndexStoreTables) : applyBatch s [] = s := rfl

theorem applyBatch_cons (s : IndexStoreTables) (op : BatchOp) (b : List BatchOp) :
    applyBatch s (op :: b) = applyBatch (applyOp s op) b := rfl

theorem applyBatch_append (s : IndexStoreTables) (b1 b2 : List BatchOp) :
    applyBatch s (b1 ++ b2) = applyBatch (applyBatch s b1) b2 :=
  List.foldl_append _ _ _ _

theorem tablesExt {s t : IndexStoreTables} (h1 : s.transactions = t.transactions)
    (h2 : s.owner = t.owner) : s = t := by
  cases s; cases t; cases h1; cases h2; rfl

/-! ## Per-key effect of a batch on the transactions table -/

def opTxEffect (d : TransactionDigest) : BatchOp → Option (Option TransactionInfo)
  | .insertTx d' i => if d' = d then some (some i) else none
  | .deleteTx d' => if d' = d then some none else none
  | _ => none

def batchTxEffect (d : TransactionDigest) : List BatchOp → Option (Option TransactionInfo)
  | [] => none
  | op :: rest =>
    match batchTxEffect d rest with
    | some e => some e
    | none => opTxEffect d op

theorem applyOp_transactions_lookup (s : IndexStoreTables) (op : BatchOp)
    (d : TransactionDigest) :
    (applyOp s op).transactions.lookup d =
      match opTxEffect d op with
      | some e => e
      | none => s.transactions.lookup d := by
  cases op with
  | insertTx d' i =>
    by_cases h : d' = d
    · subst h; simp [applyOp, opTxEffect, Finmap.lookup_insert]
    · simp [applyOp, opTxEffect, h, Finmap.lookup_insert_of_ne _ (Ne.symm h)]
  | deleteTx d' =>
    by_cases h : d' = d
    · subst h; simp [applyOp, opTxEffect, Finmap.lookup_erase]
    · simp [applyOp, opTxEffect, h, Finmap.lookup_erase_ne (Ne.symm h)]
  | insertOwner k v => simp [applyOp, opTxEffect]
  | deleteOwner k => simp [applyOp, opTxEffect]

theorem applyBatch_transactions_lookup (b : List BatchOp) (s : IndexStoreTables)
    (d : TransactionDigest) :
    (applyBatch s b).transactions.lookup d =
      match batchTxEffect d b with
      | some e => e
      | none => s.transactions.lookup d := by
  induction b generalizing s with
  | nil => rfl
  | cons op rest ih =>
    rw [applyBatch_cons, ih]
    cases hb : batchTxEffect d rest with
    | some e => simp [batchTxEffect, hb]
    | none => simp [batchTxEffect, hb, applyOp_transactions_lookup]

/-! ## Per-key effect of a batch on the owner table -/

def opOwnerEffect (k : OwnerIndexKey) : BatchOp → Option (Option OwnerIndexInfo)
  | .insertOwner k' v => if k' = k then some (some v) else none
  | .deleteOwner k' => if k' = k then some none else none
  | _ => none

def batchOwnerEffect (k : OwnerIndexKey) : List BatchOp → Option (Option OwnerIndexInfo)
  | [] => none
  | op :: rest =>
    match batchOwnerEffect k rest with
    | some e => some e
    | none => opOwnerEffect k op

theorem applyOp_owner_lookup (s : IndexStoreTables) (op : BatchOp) (k : OwnerIndexKey) :
    (applyOp s op).owner.lookup k =
      match opOwnerEffect k op with
      | some e => e
      | none => s.owner.lookup k := by
  cases op with
  | insertTx d' i => simp [applyOp, opOwnerEffect]
  | deleteTx d' => simp [applyOp, opOwnerEffect]
  | insertOwner k' v =>
    by_cases h : k' = k
    · subst h; simp [applyOp, opOwnerEffect, Finmap.lookup_insert]
    · simp [applyOp, opOwnerEffect, h, Finmap.lookup_insert_of_ne _ (Ne.symm h)]
  | deleteOwner k' =>
    by_cases h : k' = k
    · subst h; simp [applyOp, opOwnerEffect, Finmap.lookup_erase]
    · simp [applyOp, opOwnerEffect, h, Finmap.lookup_erase_ne (Ne.symm h)]

theorem applyBatch_owner_lookup (b : List BatchOp) (s : IndexStoreTables) (k : OwnerIndexKey) :
    (applyBatch s b).owner.lookup k =
      match batchOwnerEffect k b with
      | some e => e
      | none => s.owner.lookup k := by
  induction b generalizing s with
  | nil => rfl
  | cons op rest ih =>
    rw [applyBatch_cons, ih]
    cases hb : batchOwnerEffect k rest with
    | some e => simp [batchOwnerEffect, hb]
    | none => simp [batchOwnerEffect, hb, applyOp_owner_lookup]

/-- Re-applying an already-committed batch does not change either table. -/
theorem applyBatch_idem (s : IndexStoreTables) (b : List BatchOp) :
    applyBatch (applyBatch s b) b = applyBatch s b := by
  apply tablesExt
  · apply Finmap.ext_lookup
    intro d
    rw [applyBatch_transactions_lookup, applyBatch_transactions_lookup]
    cases hb : batchTxEffect d b with
    | some e => rfl
    | none => rfl
  · apply Finmap.ext_lookup
    intro k
    rw [applyBatch_owner_lookup, applyBatch_owner_lookup]
    cases hb : batchOwnerEffect k b with
    | some e => rfl
    | none => rfl

/-! ## Which table an operation touches -/

def isTxOp : BatchOp → Bool
  | .insertTx _ _ => true
  | .deleteTx _ => true
  | _ => false

def isOwnerOp : BatchOp → Bool
  | .insertOwner _ _ => true
  | .deleteOwner _ => true
  | _ => false

def applyTxOp (t : TransactionsTable) : BatchOp → TransactionsTable
  | .insertTx d i => t.insert d i
  | .deleteTx d => t.erase d
  | _ => t

def applyOwnerOp (own : OwnerTable) : BatchOp → OwnerTable
  | .insertOwner k v => own.insert k v
  | .deleteOwner k => own.erase k
  | _ => own

theorem applyOp_transactions (s : IndexStoreTables) (op : BatchOp) :
    (applyOp s op).transactions = applyTxOp s.transactions op := by
  cases op <;> rfl

theorem applyOp_owner (s : IndexStoreTables) (op : BatchOp) :
    (applyOp s op).owner = applyOwnerOp s.owner op := by
  cases op <;> rfl

theorem applyBatch_transactions_eq_fold (b : List BatchOp) (s : IndexStoreTables) :
    (applyBatch s b).transactions = b.foldl applyTxOp s.transactions := by
  induction b generalizing s with
  | nil => rfl
  | cons op rest ih =>
    rw [applyBatch_cons, ih, List.foldl_cons, applyOp_transactions]

theorem applyBatch_owner_eq_fold (b : List BatchOp) (s : IndexStoreTables) :
    (applyBatch s b).owner = b.foldl applyOwnerOp s.owner := by
  induction b generalizing s with
  | nil => rfl
  | cons op rest ih =>
    rw [applyBatch_cons, ih, List.foldl_cons, applyOp_owner]

theorem foldTx_of_ownerOps (b : List BatchOp) (t : TransactionsTable)
    (h : ∀ op ∈ b, isOwnerOp op = true) : b.foldl applyTxOp t = t := by
  induction b generalizing t with
  | nil => rfl
  | cons op rest ih =>
    have hop := h op (List.mem_cons_self _ _)
    have hop' : applyTxOp t op = t := by cases op <;> simp [isOwnerOp] at hop ⊢ <;> rfl
    rw [List.foldl_cons, hop']
    exact ih t fun o ho => h o (List.mem_cons_of_mem _ ho)

theorem foldOwner_of_txOps (b : List BatchOp) (own : OwnerTable)
    (h : ∀ op ∈ b, isTxOp op = true) : b.foldl applyOwnerOp own = own := by
  induction b generalizing own with
  | nil => rfl
  | cons op rest ih =>
    have hop := h op (List.mem_cons_self _ _)
    have hop' : applyOwnerOp own op = own := by cases op <;> simp [isTxOp] at hop ⊢ <;> rfl
    rw [List.foldl_cons, hop']
    exact ih own fun o ho => h o (List.mem_cons_of_mem _ ho)

theorem batchTxEffect_of_ownerOps (b : List BatchOp) (d : TransactionDigest)
    (h : ∀ op ∈ b, isOwnerOp op = true) : batchTxEffect d b = none := by
  induction b with
  | nil => rfl
  | cons op rest ih =>
    have hop := h op (List.mem_cons_self _ _)
    have hrest := ih fun o ho => h o (List.mem_cons_of_mem _ ho)
    have hop' : opTxEffect d op = none := by
      cases op <;> simp [isOwnerOp] at hop ⊢ <;> rfl
    simp [batchTxEffect, hrest, hop']

theorem batchTxEffect_append (b1 b2 : List BatchOp) (d : TransactionDigest) :
    batchTxEffect d (b1 ++ b2) =
      match batchTxEffect d b2 with
      | some e => some e
      | none => batchTxEffect d b1 := by
  induction b1 with
  | nil =>
    cases hb2 : batchTxEffect d b2 with
    | some e => simp [hb2]
    | none => simp [hb2, batchTxEffect]
  | cons op rest ih =>
    simp only [List.cons_append, batchTxEffect, List.append_eq]
    rw [ih]
    cases hb2 : batchTxEffect d b2 with
    | some e => rfl
    | none => rfl

/-! ## Membership in `catMapL` -/

theorem mem_catMapL {f : α → List β} {l : List α} {b : β} :
    b ∈ catMapL f l ↔ ∃ a ∈ l, b ∈ f a := by
  induction l with
  | nil => simp [catMapL]
  | cons x xs ih => simp [catMapL, ih, List.mem_append, or_and_right, exists_or]

/-! ## Pruning lemmas -/

theorem batchTxEffect_deleteList (l : List TransactionDigest) (d : TransactionDigest) :
    batchTxEffect d (l.map .deleteTx) = if d ∈ l then some none else none := by
  induction l with
  | nil => simp [batchTxEffect]
  | cons a rest ih =>
    by_cases hd : d ∈ rest
    · simp [batchTxEffect, ih, hd, List.mem_cons]
    · by_cases ha : a = d
      · subst ha
        simp [batchTxEffect, ih, hd, opTxEffect, List.mem_cons]
      · simp [batchTxEffect, ih, hd, opTxEffect, ha, List.mem_cons, Ne.symm ha]

theorem prune_owner (s : IndexStoreTables) (cl : List CheckpointContents) :
    (s.prune cl).owner = s.owner := by
  rw [IndexStoreTables.prune, applyBatch_owner_eq_fold]
  apply foldOwner_of_txOps
  intro op hop
  rcases List.mem_map.mp hop with ⟨d, _, rfl⟩
  rfl

theorem prune_transactions_lookup (s : IndexStoreTables) (cl : List CheckpointContents)
    (d : TransactionDigest) :
    (s.prune cl).transactions.lookup d =
      if d ∈ catMapL id cl then none else s.transactions.lookup d := by
  rw [IndexStoreTables.prune, applyBatch_transactions_lookup, batchTxEffect_deleteList]
  by_cases hd : d ∈ catMapL id cl <;> simp [hd]

/-! ## Owner-index invariant: preservation through one object-level step -/

theorem lookup_erase_none {α : Type} [DecidableEq α] {β : α → Type} (m : Finmap β)
    (a a' : α) (h : m.lookup a = none) : (m.erase a').lookup a = none := by
  by_cases hx : a = a'
  · subst hx; exact Finmap.lookup_erase a m
  · rw [Finmap.lookup_erase_ne hx]; exact h

/-- State of the owner table after the deletion phase for a changed object:
at keys of other objects it still matches `L`; at keys of this object it is
either already cleared or the object's current owner is that very address. -/
def MidInv (own2 : OwnerTable) (L : ObjMap) (object : Object) : Prop :=
  ∀ key : OwnerIndexKey,
    (key.object_id = object.id →
      object.owner = Owner.AddressOwner key.owner ∨ own2.lookup key = none) ∧
    (key.object_id ≠ object.id → own2.lookup key = expectedOwnerEntry L key)

theorem mid_of_none (own : OwnerTable) (L : ObjMap) (object : Object)
    (hinv : OwnerInv own L) (hl : L.lookup object.id = none) :
    MidInv own L object := by
  intro key
  refine ⟨fun ho => Or.inr ?_, fun _ => hinv key⟩
  rw [hinv key, expectedOwnerEntry, ho, hl]

theorem mid_of_same (own : OwnerTable) (L : ObjMap) (object old : Object)
    (hinv : OwnerInv own L) (hl : L.lookup object.id = some old)
    (hsame : old.owner = object.owner) :
    MidInv own L object := by
  intro key
  refine ⟨fun ho => ?_, fun _ => hinv key⟩
  by_cases hcond : old.owner = Owner.AddressOwner key.owner
  · exact Or.inl (hsame ▸ hcond)
  · refine Or.inr ?_
    rw [hinv key, expectedOwnerEntry, ho, hl]
    simp [hcond]

theorem mid_of_erase (own : OwnerTable) (L : ObjMap) (object old : Object) (aO : SuiAddress)
    (hinv : OwnerInv own L) (hl : L.lookup object.id = some old)
    (hold : old.owner = Owner.AddressOwner aO) :
    MidInv (own.erase ⟨aO, object.id⟩) L object := by
  intro key
  constructor
  · intro ho
    refine Or.inr ?_
    by_cases hk : key = ⟨aO, object.id⟩
    · subst hk; exact Finmap.lookup_erase _ _
    · rw [Finmap.lookup_erase_ne hk, hinv key, expectedOwnerEntry, ho, hl]
      have hA : key.owner ≠ aO := by
        intro hA; apply hk; cases key; simp_all
      simp only [hold]
      have : ¬(Owner.AddressOwner aO = Owner.AddressOwner key.owner) := by
        intro h; exact hA (by injection h with h'; exact h'.symm)
      simp [this]
  · intro ho
    have hk : key ≠ (⟨aO, object.id⟩ : OwnerIndexKey) := by
      intro hk; apply ho; rw [hk]
    rw [Finmap.lookup_erase_ne hk, hinv key]

theorem mid_of_nonaddr_old (own : OwnerTable) (L : ObjMap) (object old : Object)
    (hinv : OwnerInv own L) (hl : L.lookup object.id = some old)
    (hna : ∀ a, ¬ old.owner = Owner.AddressOwner a) :
    MidInv own L object := by
  intro key
  refine ⟨fun ho => Or.inr ?_, fun _ => hinv key⟩
  rw [hinv key, expectedOwnerEntry, ho, hl]
  simp [hna key.owner]

theorem ownerInv_of_mid_insert (own2 : OwnerTable) (L : ObjMap) (object : Object)
    (aN : SuiAddress) (info : OwnerIndexInfo)
    (hmid : MidInv own2 L object) (howner : object.owner = Owner.AddressOwner aN)
    (hnew : OwnerIndexInfo.new? object = some info) :
    OwnerInv (own2.insert ⟨aN, object.id⟩ info) (L.insert object.id object) := by
  intro key
  by_cases hk : key = (⟨aN, object.id⟩ : OwnerIndexKey)
  · subst hk
    rw [Finmap.lookup_insert, expectedOwnerEntry]
    simp [Finmap.lookup_insert, howner, hnew]
  · rw [Finmap.lookup_insert_of_ne _ hk]
    by_cases ho : key.object_id = object.id
    · have hA : key.owner ≠ aN := by
        intro hA; apply hk; cases key; simp_all
      have hcond : ¬(object.owner = Owner.AddressOwner key.owner) := by
        rw [howner]; intro h; exact hA (by injection h with h'; exact h'.symm)
      rcases (hmid key).1 ho with hL | hnone
      · exact absurd hL hcond
      · rw [hnone, expectedOwnerEntry, ho, Finmap.lookup_insert]
        simp [hcond]
    · rw [(hmid key).2 ho, expectedOwnerEntry, expectedOwnerEntry,
        Finmap.lookup_insert_of_ne _ ho]

theorem ownerInv_of_mid_nonaddr (own2 : OwnerTable) (L : ObjMap) (object : Object)
    (hmid : MidInv own2 L object)
    (hna : ∀ a, ¬ object.owner = Owner.AddressOwner a) :
    OwnerInv own2 (L.insert object.id object) := by
  intro key
  by_cases ho : key.object_id = object.id
  · rcases (hmid key).1 ho with hL | hnone
    · exact absurd hL (hna key.owner)
    · rw [hnone, expectedOwnerEntry, ho, Finmap.lookup_insert]
      simp [hna key.owner]
  · rw [(hmid key).2 ho, expectedOwnerEntry, expectedOwnerEntry,
      Finmap.lookup_insert_of_ne _ ho]

theorem ownerInv_removed_addr (own : OwnerTable) (L : ObjMap) (object : Object)
    (a : SuiAddress) (hinv : OwnerInv own L) (hl : L.lookup object.id = some object)
    (howner : object.owner = Owner.AddressOwner a) :
    OwnerInv (own.erase ⟨a, object.id⟩) (L.erase object.id) := by
  intro key
  by_cases hk : key = (⟨a, object.id⟩ : OwnerIndexKey)
  · subst hk
    rw [Finmap.lookup_erase, expectedOwnerEntry]
    simp [Finmap.lookup_erase]
  · rw [Finmap.lookup_erase_ne hk, hinv key]
    by_cases ho : key.object_id = object.id
    · have hA : key.owner ≠ a := by
        intro hA; apply hk; cases key; simp_all
      have hcond : ¬(object.owner = Owner.AddressOwner key.owner) := by
        rw [howner]; intro h; exact hA (by injection h with h'; exact h'.symm)
      rw [expectedOwnerEntry, expectedOwnerEntry, ho, hl, Finmap.lookup_erase]
      simp [hcond]
    · rw [expectedOwnerEntry, expectedOwnerEntry, Finmap.lookup_erase_ne ho]

theorem ownerInv_removed_nonaddr (own : OwnerTable) (L : ObjMap) (object : Object)
    (hinv : OwnerInv own L) (hl : L.lookup object.id = some object)
    (hna : ∀ a, ¬ object.owner = Owner.AddressOwner a) :
    OwnerInv own (L.erase object.id) := by
  intro key
  rw [hinv key]
  by_cases ho : key.object_id = object.id
  · rw [expectedOwnerEntry, expectedOwnerEntry, ho, hl, Finmap.lookup_erase]
    simp [hna key.owner]
  · rw [expectedOwnerEntry, expectedOwnerEntry, Finmap.lookup_erase_ne ho]

/-- The deletion phase of the changed-object handling, as a definition of its
own (identical to the `deletes` binding inside `changedObjectOps`). -/
def changedDeletes (object : Object) : Option Object → List BatchOp
  | some old =>
    if old.owner ≠ object.owner then
      match old.owner with
      | .AddressOwner address => [.deleteOwner (OwnerIndexKey.new address old.id)]
      | _ => []
    else []
  | none => []

theorem changedObjectOps_eq (object : Object) (old_object : Option Object) :
    changedObjectOps object old_object =
      match object.owner with
      | .AddressOwner owner =>
        match OwnerIndexInfo.new? object with
        | some owner_info =>
          some (changedDeletes object old_object ++
            [.insertOwner (OwnerIndexKey.new owner object.id) owner_info])
        | none => none
      | _ => some (changedDeletes object old_object) := by
  cases old_object <;> rfl

theorem mid_changedDeletes (own : OwnerTable) (L : ObjMap) (object : Object)
    (old_object : Option Object) (hinv : OwnerInv own L)
    (hl : L.lookup object.id = old_object)
    (hid : ∀ old, old_object = some old → old.id = object.id) :
    MidInv ((changedDeletes object old_object).foldl applyOwnerOp own) L object := by
  cases old_object with
  | none => exact mid_of_none own L object hinv hl
  | some old =>
    have hid' : old.id = object.id := hid old rfl
    by_cases hdiff : old.owner = object.owner
    · have hD : changedDeletes object (some old) = [] := by
        simp [changedDeletes, hdiff]
      rw [hD]
      exact mid_of_same own L object old hinv hl hdiff
    · cases hold : old.owner with
      | AddressOwner aO =>
        have hdiff' : ¬ Owner.AddressOwner aO = object.owner := hold ▸ hdiff
        have hD : changedDeletes object (some old) =
            [.deleteOwner (⟨aO, object.id⟩ : OwnerIndexKey)] := by
          simp [changedDeletes, hdiff', hold, OwnerIndexKey.new, hid']
        rw [hD]
        exact mid_of_erase own L object old aO hinv hl hold
      | ObjectOwner o =>
        have hD : changedDeletes object (some old) = [] := by
          simp [changedDeletes, hdiff, hold]
        rw [hD]
        exact mid_of_nonaddr_old own L object old hinv hl (by simp [hold])
      | Shared =>
        have hD : changedDeletes object (some old) = [] := by
          simp [changedDeletes, hdiff, hold]
        rw [hD]
        exact mid_of_nonaddr_old own L object old hinv hl (by simp [hold])
      | Immutable =>
        have hD : changedDeletes object (some old) = [] := by
          simp [changedDeletes, hdiff, hold]
        rw [hD]
        exact mid_of_nonaddr_old own L object old hinv hl (by simp [hold])

/-- Preservation of the owner-index invariant through one object-level step
of `index_checkpoint`'s owner-index phase. -/
theorem ownerInv_step (own : OwnerTable) (L : ObjMap) (op : TxOp) (ops : List BatchOp)
    (hinv : OwnerInv own L) (hc : opConsistent L op = true)
    (hops : ownerOpsOfTxOp op = some ops) :
    OwnerInv (ops.foldl applyOwnerOp own) (stateStep L op) := by
  cases op with
  | removed object =>
    have hl : L.lookup object.id = some object := by
      simpa [opConsistent] using hc
    have hops' : removedObjectOps object = ops := by
      simpa [ownerOpsOfTxOp] using hops
    cases howner : object.owner with
    | AddressOwner a =>
      have h1 : ops = [.deleteOwner (⟨a, object.id⟩ : OwnerIndexKey)] := by
        rw [← hops']; simp [removedObjectOps, howner, OwnerIndexKey.new]
      subst h1
      exact ownerInv_removed_addr own L object a hinv hl howner
    | ObjectOwner o =>
      have h1 : ops = [] := by rw [← hops']; simp [removedObjectOps, howner]
      subst h1
      exact ownerInv_removed_nonaddr own L object hinv hl (by simp [howner])
    | Shared =>
      have h1 : ops = [] := by rw [← hops']; simp [removedObjectOps, howner]
      subst h1
      exact ownerInv_removed_nonaddr own L object hinv hl (by simp [howner])
    | Immutable =>
      have h1 : ops = [] := by rw [← hops']; simp [removedObjectOps, howner]
      subst h1
      exact ownerInv_removed_nonaddr own L object hinv hl (by simp [howner])
  | changed object old_object =>
    simp only [opConsistent, Bool.and_eq_true, decide_eq_true_eq] at hc
    obtain ⟨hl, hall⟩ := hc
    have hid : ∀ old, old_object = some old → old.id = object.id := by
      intro old ho; subst ho; simpa using hall
    have hmid := mid_changedDeletes own L object old_object hinv hl hid
    rw [ownerOpsOfTxOp, changedObjectOps_eq] at hops
    cases howner : object.owner with
    | AddressOwner aN =>
      rw [howner] at hops
      cases hnew : OwnerIndexInfo.new? object with
      | none => rw [hnew] at hops; exact absurd hops (by simp)
      | some info =>
        rw [hnew] at hops
        have hops' : ops = changedDeletes object old_object ++
            [.insertOwner (OwnerIndexKey.new aN object.id) info] := by
          injection hops with h; exact h.symm
        subst hops'
        rw [List.foldl_append]
        exact ownerInv_of_mid_insert _ L object aN info hmid howner hnew
    | ObjectOwner o =>
      rw [howner] at hops
      have hops' : ops = changedDeletes object old_object := by
        injection hops with h; exact h.symm
      subst hops'
      exact ownerInv_of_mid_nonaddr _ L object hmid (by simp [howner])
    | Shared =>
      rw [howner] at hops
      have hops' : ops = changedDeletes object old_object := by
        injection hops with h; exact h.symm
      subst hops'
      exact ownerInv_of_mid_nonaddr _ L object hmid (by simp [howner])
    | Immutable =>
      rw [howner] at hops
      have hops' : ops = changedDeletes object old_object := by
        injection hops with h; exact h.symm
      subst hops'
      exact ownerInv_of_mid_nonaddr _ L object hmid (by simp [howner])

theorem stateWF_step (L : ObjMap) (op : TxOp) (ops : List BatchOp)
    (hwf : StateWF L) (hops : ownerOpsOfTxOp op = some ops) :
    StateWF (stateStep L op) := by
  cases op with
  | removed object =>
    intro i obj hlook
    simp only [stateStep] at hlook
    by_cases hi : i = object.id
    · subst hi; rw [Finmap.lookup_erase] at hlook; exact absurd hlook (by simp)
    · rw [Finmap.lookup_erase_ne hi] at hlook
      exact hwf i obj hlook
  | changed object old_object =>
    intro i obj hlook
    simp only [stateStep] at hlook
    by_cases hi : i = object.id
    · subst hi
      rw [Finmap.lookup_insert] at hlook
      injection hlook with h
      subst h
      refine ⟨rfl, ?_⟩
      intro a howner
      rw [ownerOpsOfTxOp, changedObjectOps_eq, howner] at hops
      cases hnew : OwnerIndexInfo.new? object with
      | none => rw [hnew] at hops; exact absurd hops (by simp)
      | some info => simp [hnew]
    · rw [Finmap.lookup_insert_of_ne _ hi] at hlook
      exact hwf i obj hlook

/-! ## Lifting the invariants through transactions, checkpoints, and runs -/

theorem inv_ops (tops : List TxOp) (own : OwnerTable) (L : ObjMap)
    (bss : List (List BatchOp))
    (hinv : OwnerInv own L) (hwf : StateWF L)
    (hc : opsConsistent L tops = true)
    (hops : mapOpt ownerOpsOfTxOp tops = some bss) :
    OwnerInv ((catMapL id bss).foldl applyOwnerOp own) (applyOps L tops) ∧
      StateWF (applyOps L tops) := by
  induction tops generalizing own L bss with
  | nil =>
    simp only [mapOpt] at hops
    injection hops with h
    subst h
    exact ⟨hinv, hwf⟩
  | cons top rest ih =>
    simp only [mapOpt] at hops
    cases h1 : ownerOpsOfTxOp top with
    | none => rw [h1] at hops; exact absurd hops (by simp)
    | some ops1 =>
      rw [h1] at hops
      cases h2 : mapOpt ownerOpsOfTxOp rest with
      | none => rw [h2] at hops; exact absurd hops (by simp)
      | some bss' =>
        rw [h2] at hops
        injection hops with h
        subst h
        simp only [opsConsistent, Bool.and_eq_true] at hc
        obtain ⟨hc1, hc2⟩ := hc
        have hstep := ownerInv_step own L top ops1 hinv hc1 h1
        have hwf' := stateWF_step L top ops1 hwf h1
        have hres := ih (ops1.foldl applyOwnerOp own) (stateStep L top) bss' hstep hwf' hc2 h2
        simpa [catMapL, List.foldl_append, applyOps] using hres

theorem txInsertOps_isTx (c : CheckpointData) : ∀ op ∈ txInsertOps c, isTxOp op = true := by
  intro op hop
  rcases List.mem_map.mp hop with ⟨d, _, rfl⟩
  rfl

theorem inv_index_checkpoint (s s' : IndexStoreTables) (L : ObjMap) (c : CheckpointData)
    (hinv : OwnerInv s.owner L) (hwf : StateWF L)
    (hc : ckptConsistent L c = true)
    (hrun : s.index_checkpoint c = .ok s') :
    OwnerInv s'.owner (applyCkptState L c) ∧ StateWF (applyCkptState L c) := by
  rw [IndexStoreTables.index_checkpoint, index_checkpoint_run] at hrun
  cases hB : indexCheckpointBatch c with
  | none => rw [hB] at hrun; exact absurd hrun (by simp)
  | some b =>
    rw [hB] at hrun
    simp only [if_true] at hrun
    injection hrun with h
    subst h
    rw [indexCheckpointBatch] at hB
    cases hm : mapOpt ownerOpsOfTxOp (ckptOps c) with
    | none => rw [hm] at hB; exact absurd hB (by simp)
    | some bss =>
      rw [hm] at hB
      injection hB with hB'
      subst hB'
      have howner : (applyBatch s (txInsertOps c ++ catMapL id bss)).owner =
          (catMapL id bss).foldl applyOwnerOp s.owner := by
        rw [applyBatch_owner_eq_fold, List.foldl_append,
          foldOwner_of_txOps _ _ (txInsertOps_isTx c)]
      rw [howner]
      exact inv_ops (ckptOps c) s.owner L bss hinv hwf hc hm

theorem inv_runCkpts (cs : List CheckpointData) (s s' : IndexStoreTables) (L : ObjMap)
    (hinv : OwnerInv s.owner L) (hwf : StateWF L)
    (hc : ckptsConsistent L cs = true)
    (hrun : runCkpts s cs = .ok s') :
    OwnerInv s'.owner (replayCkpts L cs) ∧ StateWF (replayCkpts L cs) := by
  induction cs generalizing s L with
  | nil =>
    rw [runCkpts] at hrun
    injection hrun with h
    subst h
    exact ⟨hinv, hwf⟩
  | cons c rest ih =>
    rw [runCkpts] at hrun
    cases h1 : s.index_checkpoint c with
    | error e => rw [h1] at hrun; exact absurd hrun (by simp)
    | ok s1 =>
      rw [h1] at hrun
      simp only [ckptsConsistent, Bool.and_eq_true] at hc
      obtain ⟨hc1, hc2⟩ := hc
      have hstep := inv_index_checkpoint s s1 L c hinv hwf hc1 h1
      exact ih s1 (applyCkptState L c) hstep.1 hstep.2 hc2 hrun

theorem ownerInv_empty : OwnerInv emptyTables.owner ∅ := by
  intro key
  simp [emptyTables, expectedOwnerEntry, Finmap.lookup_empty]

theorem stateWF_empty : StateWF (∅ : ObjMap) := by
  intro i obj h
  rw [Finmap.lookup_empty] at h
  exact absurd h (by simp)

/-- The owner-index correctness invariant for a run from genesis. -/
theorem inv_run_from_empty (cs : List CheckpointData) (s' : IndexStoreTables)
    (hc : ckptsConsistent ∅ cs = true)
    (hrun : runCkpts emptyTables cs = .ok s') :
    OwnerInv s'.owner (replayCkpts ∅ cs) ∧ StateWF (replayCkpts ∅ cs) :=
  inv_runCkpts cs emptyTables s' ∅ ownerInv_empty stateWF_empty hc hrun

/-! ## The owner-index phase never touches the transactions table -/

theorem changedDeletes_isOwner (object : Object) (old_object : Option Object) :
    ∀ op ∈ changedDeletes object old_object, isOwnerOp op = true := by
  intro op hop
  cases old_object with
  | none => exact absurd hop (by simp [changedDeletes])
  | some old =>
    rw [changedDeletes] at hop
    by_cases hdiff : old.owner ≠ object.owner
    · rw [if_pos hdiff] at hop
      cases hold : old.owner <;> rw [hold] at hop <;> simp at hop
      subst hop
      rfl
    · rw [if_neg hdiff] at hop
      exact absurd hop (by simp)

theorem ownerOpsOfTxOp_isOwner (top : TxOp) (ops : List BatchOp)
    (h : ownerOpsOfTxOp top = some ops) : ∀ op ∈ ops, isOwnerOp op = true := by
  intro op hop
  cases top with
  | removed object =>
    rw [ownerOpsOfTxOp] at h
    injection h with h
    subst h
    rw [removedObjectOps] at hop
    cases hold : object.owner <;> rw [hold] at hop <;> simp at hop
    subst hop
    rfl
  | changed object old_object =>
    rw [ownerOpsOfTxOp, changedObjectOps_eq] at h
    cases howner : object.owner with
    | AddressOwner aN =>
      rw [howner] at h
      cases hnew : OwnerIndexInfo.new? object with
      | none => rw [hnew] at h; exact absurd h (by simp)
      | some info =>
        rw [hnew] at h
        injection h with h
        subst h
        rcases List.mem_append.mp hop with hD | hI
        · exact changedDeletes_isOwner object old_object op hD
        · simp at hI; subst hI; rfl
    | ObjectOwner o =>
      rw [howner] at h; injection h with h; subst h
      exact changedDeletes_isOwner object old_object op hop
    | Shared =>
      rw [howner] at h; injection h with h; subst h
      exact changedDeletes_isOwner object old_object op hop
    | Immutable =>
      rw [howner] at h; injection h with h; subst h
      exact changedDeletes_isOwner object old_object op hop

theorem mapOpt_ownerOps_isOwner (tops : List TxOp) (bss : List (List BatchOp))
    (h : mapOpt ownerOpsOfTxOp tops = some bss) :
    ∀ op ∈ catMapL id bss, isOwnerOp op = true := by
  induction tops generalizing bss with
  | nil =>
    simp only [mapOpt] at h
    injection h with h
    subst h
    simp [catMapL]
  | cons top rest ih =>
    simp only [mapOpt] at h
    cases h1 : ownerOpsOfTxOp top with
    | none => rw [h1] at h; exact absurd h (by simp)
    | some ops1 =>
      rw [h1] at h
      cases h2 : mapOpt ownerOpsOfTxOp rest with
      | none => rw [h2] at h; exact absurd h (by simp)
      | some bss' =>
        rw [h2] at h
        injection h with h
        subst h
        intro op hop
        rcases List.mem_append.mp (by simpa [catMapL] using hop) with h3 | h3
        · exact ownerOpsOfTxOp_isOwner top ops1 h1 op h3
        · exact ih bss' h2 op h3

/-- The transactions table after `index_checkpoint` is obtained from the
checkpoint's transaction-index insertions alone. -/
theorem index_checkpoint_transactions (s s' : IndexStoreTables) (c : CheckpointData)
    (hrun : s.index_checkpoint c = .ok s') :
    s'.transactions = (txInsertOps c).foldl applyTxOp s.transactions := by
  rw [IndexStoreTables.index_checkpoint, index_checkpoint_run] at hrun
  cases hB : indexCheckpointBatch c with
  | none => rw [hB] at hrun; exact absurd hrun (by simp)
  | some b =>
    rw [hB] at hrun
    simp only [if_true] at hrun
    injection hrun with h
    subst h
    rw [indexCheckpointBatch] at hB
    cases hm : mapOpt ownerOpsOfTxOp (ckptOps c) with
    | none => rw [hm] at hB; exact absurd hB (by simp)
    | some bss =>
      rw [hm] at hB
      injection hB with hB'
      subst hB'
      rw [applyBatch_transactions_eq_fold, List.foldl_append,
        foldTx_of_ownerOps _ _ (mapOpt_ownerOps_isOwner (ckptOps c) bss hm)]

theorem runCkpts_transactions (cs : List CheckpointData) (s s' : IndexStoreTables)
    (hrun : runCkpts s cs = .ok s') :
    s'.transactions = (catMapL txInsertOps cs).foldl applyTxOp s.transactions := by
  induction cs generalizing s with
  | nil =>
    rw [runCkpts] at hrun
    injection hrun with h
    subst h
    rfl
  | cons c rest ih =>
    rw [runCkpts] at hrun
    cases h1 : s.index_checkpoint c with
    | error e => rw [h1] at hrun; exact absurd hrun (by simp)
    | ok s1 =>
      rw [h1] at hrun
      rw [ih s1 hrun, index_checkpoint_transactions s s1 c h1]
      simp [catMapL, List.foldl_append]

/-! ## Bootstrap lemmas -/

theorem initOwnerLoop_transactions (objs : List Object) (s s' : IndexStoreTables)
    (h : initOwnerLoop s objs = .ok s') : s'.transactions = s.transactions := by
  induction objs generalizing s with
  | nil =>
    rw [initOwnerLoop] at h
    injection h with h
    subst h
    rfl
  | cons o rest ih =>
    rw [initOwnerLoop] at h
    cases howner : o.owner with
    | AddressOwner a =>
      rw [howner] at h
      cases hnew : OwnerIndexInfo.new? o with
      | none => rw [hnew] at h; exact absurd h (by simp)
      | some info =>
        rw [hnew] at h
        exact ih (applyBatch s [.insertOwner (OwnerIndexKey.new a o.id) info]) h
    | ObjectOwner x => rw [howner] at h; exact ih s h
    | Shared => rw [howner] at h; exact ih s h
    | Immutable => rw [howner] at h; exact ih s h

theorem initOwnerLoop_isOk (objs : List Object) (s : IndexStoreTables)
    (h : ∀ o ∈ objs, ∀ a, o.owner = Owner.AddressOwner a →
      (OwnerIndexInfo.new? o).isSome = true) :
    isOkE (initOwnerLoop s objs) = true := by
  induction objs generalizing s with
  | nil => rfl
  | cons o rest ih =>
    rw [initOwnerLoop]
    cases howner : o.owner with
    | AddressOwner a =>
      have hs := h o (List.mem_cons_self _ _) a howner
      cases hnew : OwnerIndexInfo.new? o with
      | none => rw [hnew] at hs; exact absurd hs (by simp)
      | some info => exact ih _ fun o' ho' => h o' (List.mem_cons_of_mem _ ho')
    | ObjectOwner x => exact ih _ fun o' ho' => h o' (List.mem_cons_of_mem _ ho')
    | Shared => exact ih _ fun o' ho' => h o' (List.mem_cons_of_mem _ ho')
    | Immutable => exact ih _ fun o' ho' => h o' (List.mem_cons_of_mem _ ho')

/-- Owner-table contents produced by the live-object loop of `init`, for a
snapshot whose objects have pairwise distinct ids. -/
theorem initOwnerLoop_lookup (objs : List Object) (s s' : IndexStoreTables)
    (hnodup : (objs.map Object.id).Nodup)
    (h : initOwnerLoop s objs = .ok s') (key : OwnerIndexKey) :
    s'.owner.lookup key =
      match objs.find?
          (fun o => decide (o.id = key.object_id ∧ o.owner = Owner.AddressOwner key.owner)) with
      | some o => OwnerIndexInfo.new? o
      | none => s.owner.lookup key := by
  induction objs generalizing s with
  | nil =>
    rw [initOwnerLoop] at h
    injection h with h
    subst h
    rfl
  | cons o rest ih =>
    rw [initOwnerLoop] at h
    rw [List.map_cons, List.nodup_cons] at hnodup
    obtain ⟨hnotin, hnodup'⟩ := hnodup
    cases howner : o.owner with
    | AddressOwner a =>
      rw [howner] at h
      cases hnew : OwnerIndexInfo.new? o with
      | none => rw [hnew] at h; exact absurd h (by simp)
      | some info =>
        rw [hnew] at h
        have ih' := ih (applyBatch s [.insertOwner (OwnerIndexKey.new a o.id) info])
          hnodup' h
        by_cases hpo : o.id = key.object_id ∧ o.owner = Owner.AddressOwner key.owner
        · have hka : key.owner = a := by
            have := hpo.2
            rw [howner] at this
            injection this with h'
            exact h'.symm
          have hkey : key = (⟨a, o.id⟩ : OwnerIndexKey) := by
            cases key
            simp_all
          have hfind : rest.find?
              (fun o' => decide (o'.id = key.object_id ∧
                o'.owner = Owner.AddressOwner key.owner)) = none := by
            rw [List.find?_eq_none]
            intro o' ho' hp'
            have hid' : o'.id = key.object_id := (of_decide_eq_true hp').1
            apply hnotin
            have hoo : o.id = o'.id := by rw [hpo.1, hid']
            rw [hoo]
            exact List.mem_map_of_mem Object.id ho'
          rw [ih', hfind]
          have hfind2 : (o :: rest).find?
              (fun o' => decide (o'.id = key.object_id ∧
                o'.owner = Owner.AddressOwner key.owner)) = some o := by
            rw [List.find?_cons_of_pos]
            exact decide_eq_true hpo
          rw [hfind2, hkey]
          show (s.owner.insert ⟨a, o.id⟩ info).lookup ⟨a, o.id⟩ = OwnerIndexInfo.new? o
          rw [Finmap.lookup_insert, hnew]
        · have hfind2 : (o :: rest).find?
              (fun o' => decide (o'.id = key.object_id ∧
                o'.owner = Owner.AddressOwner key.owner)) =
              rest.find? (fun o' => decide (o'.id = key.object_id ∧
                o'.owner = Owner.AddressOwner key.owner)) := by
            rw [List.find?_cons_of_neg]
            simp [hpo]
          rw [ih', hfind2]
          cases hf : rest.find? (fun o' => decide (o'.id = key.object_id ∧
              o'.owner = Owner.AddressOwner key.owner)) with
          | some o' => rfl
          | none =>
            have hkey : key ≠ (⟨a, o.id⟩ : OwnerIndexKey) := by
              intro hk
              apply hpo
              rw [hk]
              exact ⟨rfl, by rw [howner]⟩
            show (s.owner.insert ⟨a, o.id⟩ info).lookup key = s.owner.lookup key
            rw [Finmap.lookup_insert_of_ne _ hkey]
    | ObjectOwner x =>
      rw [howner] at h
      have hpo : ¬(o.id = key.object_id ∧ o.owner = Owner.AddressOwner key.owner) := by
        rintro ⟨-, h2⟩
        rw [howner] at h2
        exact absurd h2 (by simp)
      have hfind2 : (o :: rest).find?
          (fun o' => decide (o'.id = key.object_id ∧
            o'.owner = Owner.AddressOwner key.owner)) =
          rest.find? (fun o' => decide (o'.id = key.object_id ∧
            o'.owner = Owner.AddressOwner key.owner)) := by
        rw [List.find?_cons_of_neg]
        simp [hpo]
      rw [ih s hnodup' h, hfind2]
    | Shared =>
      rw [howner] at h
      have hpo : ¬(o.id = key.object_id ∧ o.owner = Owner.AddressOwner key.owner) := by
        rintro ⟨-, h2⟩
        rw [howner] at h2
        exact absurd h2 (by simp)
      have hfind2 : (o :: rest).find?
          (fun o' => decide (o'.id = key.object_id ∧
            o'.owner = Owner.AddressOwner key.owner)) =
          rest.find? (fun o' => decide (o'.id = key.object_id ∧
            o'.owner = Owner.AddressOwner key.owner)) := by
        rw [List.find?_cons_of_neg]
        simp [hpo]
      rw [ih s hnodup' h, hfind2]
    | Immutable =>
      rw [howner] at h
      have hpo : ¬(o.id = key.object_id ∧ o.owner = Owner.AddressOwner key.owner) := by
        rintro ⟨-, h2⟩
        rw [howner] at h2
        exact absurd h2 (by simp)
      have hfind2 : (o :: rest).find?
          (fun o' => decide (o'.id = key.object_id ∧
            o'.owner = Owner.AddressOwner key.owner)) =
          rest.find? (fun o' => decide (o'.id = key.object_id ∧
            o'.owner = Owner.AddressOwner key.owner)) := by
        rw [List.find?_cons_of_neg]
        simp [hpo]
      rw [ih s hnodup' h, hfind2]

/-! ## Backfill lemmas -/

theorem catMapL_congr {f g : α → List β} {l : List α} (h : ∀ a ∈ l, f a = g a) :
    catMapL f l = catMapL g l := by
  induction l with
  | nil => rfl
  | cons a rest ih =>
    rw [catMapL, catMapL, h a (List.mem_cons_self _ _),
      ih fun a' ha' => h a' (List.mem_cons_of_mem _ ha')]

/-- A missing summary or missing contents at the first failing sequence
number makes the backfill loop fail with a missing-data error. -/
theorem backfill_missing (store : CheckpointStore) (seqs : List Nat) (seq0 : Nat)
    (h : firstMissing store seqs = some seq0) :
    backfillOps store seqs = .error (.missingData seq0) := by
  induction seqs with
  | nil => exact absurd h (by simp [firstMissing])
  | cons seq rest ih =>
    rw [firstMissing] at h
    cases hsum : store.summary_of seq with
    | none =>
      have hm : missingAtB store seq = true := by
        simp only [missingAtB, hsum]
      rw [if_pos hm] at h
      injection h with h
      subst h
      simp only [backfillOps, hsum]
    | some cp =>
      cases hcon : store.contents_of cp.content_digest with
      | none =>
        have hm : missingAtB store seq = true := by
          simp only [missingAtB, hsum, hcon, Option.isNone]
        rw [if_pos hm] at h
        injection h with h
        subst h
        simp only [backfillOps, hsum, hcon]
      | some contents =>
        have hm : missingAtB store seq = false := by
          simp only [missingAtB, hsum, hcon, Option.isNone]
        rw [hm] at h
        simp only [Bool.false_eq_true, if_false] at h
        simp only [backfillOps, hsum, hcon, ih h]

/-- On a range with no missing data, the backfill loop stages exactly the
per-checkpoint digest insertions, in range order. -/
theorem backfill_ok (store : CheckpointStore) (seqs : List Nat)
    (h : ∀ seq ∈ seqs, missingAtB store seq = false) :
    backfillOps store seqs = .ok (catMapL
      (fun seq =>
        match store.summary_of seq with
        | some cp =>
          match store.contents_of cp.content_digest with
          | some contents => contents.map fun d => .insertTx d ⟨cp.sequence_number⟩
          | none => []
        | none => [])
      seqs) := by
  induction seqs with
  | nil => rfl
  | cons seq rest ih =>
    have hm := h seq (List.mem_cons_self _ _)
    cases hsum : store.summary_of seq with
    | none =>
      exfalso
      simp only [missingAtB, hsum] at hm
      exact Bool.noConfusion hm
    | some cp =>
      cases hcon : store.contents_of cp.content_digest with
      | none =>
        exfalso
        simp only [missingAtB, hsum, hcon, Option.isNone] at hm
        exact Bool.noConfusion hm
      | some contents =>
        simp only [backfillOps, catMapL, hsum, hcon,
          ih fun s hs => h s (List.mem_cons_of_mem _ hs)]

theorem find?_digest (cs : List CheckpointData)
    (hinj : (cs.map fun c => c.checkpoint_summary.content_digest).Nodup)
    (c : CheckpointData) (hc : c ∈ cs) :
    (cs.find? fun c' => decide (c'.checkpoint_summary.content_digest =
      c.checkpoint_summary.content_digest)) = some c := by
  induction cs with
  | nil => exact absurd hc (by simp)
  | cons a rest ih =>
    rw [List.map_cons, List.nodup_cons] at hinj
    obtain ⟨hnotin, hinj'⟩ := hinj
    rcases List.mem_cons.mp hc with rfl | hc'
    · rw [List.find?_cons_of_pos]
      exact decide_eq_true rfl
    · have hne : ¬(a.checkpoint_summary.content_digest =
          c.checkpoint_summary.content_digest) := by
        intro he
        apply hnotin
        rw [he]
        exact List.mem_map_of_mem _ hc'
      rw [List.find?_cons_of_neg]
      · exact ih hinj' hc'
      · simp [hne]

theorem seqRange_storeOf (cs : List CheckpointData) :
    seqRange (storeOfCkpts cs) = List.range' 0 cs.length := by
  cases cs with
  | nil => rfl
  | cons c rest => rfl

theorem backfill_storeOf_aux (cs : List CheckpointData)
    (hinj : (cs.map fun c => c.checkpoint_summary.content_digest).Nodup) :
    ∀ (suf pre : List CheckpointData), cs = pre ++ suf →
      backfillOps (storeOfCkpts cs) (List.range' pre.length suf.length) =
        .ok (catMapL txInsertOps suf) := by
  intro suf
  induction suf with
  | nil => intro pre hpre; rfl
  | cons c suf' ih =>
    intro pre hpre
    have hsum : (storeOfCkpts cs).summary_of pre.length = some c.checkpoint_summary := by
      show (cs[pre.length]?).map (·.checkpoint_summary) = some c.checkpoint_summary
      rw [hpre, List.getElem?_append_right (le_refl pre.length)]
      simp
    have hc : c ∈ cs := by
      rw [hpre]
      exact List.mem_append_right _ (List.mem_cons_self _ _)
    have hcon : (storeOfCkpts cs).contents_of c.checkpoint_summary.content_digest =
        some c.checkpoint_contents := by
      show (cs.find? fun c' => decide (c'.checkpoint_summary.content_digest =
        c.checkpoint_summary.content_digest)).map (·.checkpoint_contents) =
        some c.checkpoint_contents
      rw [find?_digest cs hinj c hc]
      rfl
    have ih' := ih (pre ++ [c]) (by rw [hpre]; simp)
    rw [List.length_append] at ih'
    simp only [List.length_singleton] at ih'
    simp only [List.length_cons, List.range'_succ pre.length suf'.length 1]
    simp only [backfillOps, hsum, hcon, catMapL, ih']
    rfl

theorem backfill_storeOf (cs : List CheckpointData)
    (hinj : (cs.map fun c => c.checkpoint_summary.content_digest).Nodup) :
    backfillOps (storeOfCkpts cs) (seqRange (storeOfCkpts cs)) =
      .ok (catMapL txInsertOps cs) := by
  rw [seqRange_storeOf]
  have h := backfill_storeOf_aux cs hinj cs [] rfl
  simpa using h

theorem init_eq (s : IndexStoreTables) (auth : AuthorityStore) (store : CheckpointStore)
    (ops : List BatchOp) (hb : backfillOps store (seqRange store) = .ok ops) :
    s.init auth store = initOwnerLoop (applyBatch s ops) auth := by
  simp only [IndexStoreTables.init, hb]

theorem init_error (s : IndexStoreTables) (auth : AuthorityStore) (store : CheckpointStore)
    (e : IndexError) (hb : backfillOps store (seqRange store) = .error e) :
    s.init auth store = .error e := by
  simp only [IndexStoreTables.init, hb]

theorem catMapL_txInsertOps_isTx (cs : List CheckpointData) :
    ∀ op ∈ catMapL txInsertOps cs, isTxOp op = true := by
  intro op hop
  rcases mem_catMapL.mp hop with ⟨c, _, hmem⟩
  exact txInsertOps_isTx c op hmem

/-- A faithful snapshot of the live-object state makes the bootstrap loop's
find-based table agree with the specification's expected entry. -/
theorem snapshot_find_expected (L : ObjMap) (snapshot : List Object) (key : OwnerIndexKey)
    (hwf : StateWF L)
    (hsnap1 : ∀ o ∈ snapshot, L.lookup o.id = some o)
    (hsnap2 : ∀ O ∈ L.keys, ∃ o, o ∈ snapshot ∧ o.id = O) :
    (match snapshot.find? (fun o => decide (o.id = key.object_id ∧
        o.owner = Owner.AddressOwner key.owner)) with
      | some o => OwnerIndexInfo.new? o
      | none => none) = expectedOwnerEntry L key := by
  cases hfind : snapshot.find? (fun o => decide (o.id = key.object_id ∧
      o.owner = Owner.AddressOwner key.owner)) with
  | some o =>
    have hp' := List.find?_some hfind
    have hp : o.id = key.object_id ∧ o.owner = Owner.AddressOwner key.owner :=
      of_decide_eq_true hp'
    have hmem := List.mem_of_find?_eq_some hfind
    have hlook := hsnap1 o hmem
    rw [hp.1] at hlook
    simp [expectedOwnerEntry, hlook, hp.2]
  | none =>
    cases hlook : L.lookup key.object_id with
    | none => simp [expectedOwnerEntry, hlook]
    | some obj =>
      have hid := (hwf _ _ hlook).1
      by_cases hcond : obj.owner = Owner.AddressOwner key.owner
      · exfalso
        have hkey : key.object_id ∈ L.keys := by
          rw [Finmap.mem_keys]
          apply Finmap.lookup_isSome.mp
          rw [hlook]
          rfl
        obtain ⟨o, hos, hoid⟩ := hsnap2 _ hkey
        have hol := hsnap1 o hos
        rw [hoid, hlook] at hol
        injection hol with hol
        have hno := List.find?_eq_none.mp hfind o hos
        apply hno
        apply decide_eq_true
        refine ⟨hoid, ?_⟩
        rw [← hol]
        exact hcond
      · simp [expectedOwnerEntry, hlook, hcond]

theorem firstMissing_none (store : CheckpointStore) (seqs : List Nat) :
    firstMissing store seqs = none ↔ ∀ seq ∈ seqs, missingAtB store seq = false := by
  induction seqs with
  | nil => simp [firstMissing]
  | cons seq rest ih =>
    rw [firstMissing]
    by_cases hm : missingAtB store seq = true
    · simp [hm]
    · rw [if_neg hm, ih]
      simp only [Bool.not_eq_true] at hm
      simp [hm]

/-! ## Remaining helper lemmas -/

theorem expectedOwnerEntry_eq_some (L : ObjMap) (key : OwnerIndexKey)
    (info : OwnerIndexInfo) :
    expectedOwnerEntry L key = some info ↔
      ∃ obj, L.lookup key.object_id = some obj ∧
        obj.owner = Owner.AddressOwner key.owner ∧
        OwnerIndexInfo.new? obj = some info := by
  cases hlook : L.lookup key.object_id with
  | none => simp [expectedOwnerEntry, hlook]
  | some obj =>
    by_cases hcond : obj.owner = Owner.AddressOwner key.owner
    · simp [expectedOwnerEntry, hlook, hcond]
    · simp [expectedOwnerEntry, hlook, hcond]

theorem batchTxEffect_insertList_not_mem (l : List TransactionDigest)
    (i : TransactionInfo) (d : TransactionDigest) (hd : d ∉ l) :
    batchTxEffect d (l.map fun d' => .insertTx d' i) = none := by
  induction l with
  | nil => rfl
  | cons a rest ih =>
    have hd' : d ∉ rest := fun h => hd (List.mem_cons_of_mem _ h)
    have ha : ¬(a = d) := fun h => hd (h ▸ List.mem_cons_self _ _)
    simp [batchTxEffect, ih hd', opTxEffect, ha]

theorem batchTxEffect_insertList_mem (l : List TransactionDigest)
    (i : TransactionInfo) (d : TransactionDigest) (hd : d ∈ l) :
    batchTxEffect d (l.map fun d' => .insertTx d' i) = some (some i) := by
  induction l with
  | nil => exact absurd hd (by simp)
  | cons a rest ih =>
    by_cases hd' : d ∈ rest
    · simp [batchTxEffect, ih hd']
    · have ha : a = d := by
        rcases List.mem_cons.mp hd with h | h
        · exact h.symm
        · exact absurd h hd'
      simp [batchTxEffect, batchTxEffect_insertList_not_mem rest i d hd', opTxEffect, ha]

theorem changedDeletes_no_insert (object : Object) (old_object : Option Object)
    (k : OwnerIndexKey) (v : OwnerIndexInfo) :
    BatchOp.insertOwner k v ∉ changedDeletes object old_object := by
  intro hop
  cases old_object with
  | none => simp [changedDeletes] at hop
  | some old =>
    rw [changedDeletes] at hop
    by_cases hdiff : old.owner ≠ object.owner
    · rw [if_pos hdiff] at hop
      cases hold : old.owner <;> rw [hold] at hop <;> simp at hop
    · rw [if_neg hdiff] at hop
      simp at hop

/-! ## Concrete example data (used by the witnesses) -/

/-- A concrete object: id 1, version 1, Move type 7, owned by address 5. -/
def objA : Object := ⟨1, 1, some 7, .AddressOwner 5⟩

def txA : TransactionData := ⟨[], [(objA, none)]⟩

/-- A concrete checkpoint 0 with one transaction digest 100 creating `objA`. -/
def ckA : CheckpointData := ⟨⟨0, 11⟩, [100], [txA]⟩

/-- The index-table contents after indexing `ckA` from empty. -/
def sA : IndexStoreTables :=
  ⟨(∅ : TransactionsTable).insert 100 ⟨0⟩, (∅ : OwnerTable).insert ⟨5, 1⟩ ⟨1, 7⟩⟩

/-! ## Claim theorems -/

/-- C3: idempotence of checkpoint indexing.  For every index state and every
checkpoint input, if `index_checkpoint` succeeds, then running the same
checkpoint's indexing step again from the resulting state succeeds and leaves
both tables exactly as after the first application. -/
theorem rest_index_c3_idempotent (s s' : IndexStoreTables) (c : CheckpointData)
    (h : s.index_checkpoint c = .ok s') :
    s'.index_checkpoint c = .ok s' := by
  rw [IndexStoreTables.index_checkpoint, index_checkpoint_run] at h ⊢
  cases hB : indexCheckpointBatch c with
  | none => rw [hB] at h; exact absurd h (by simp)
  | some b =>
    rw [hB] at h
    have h' : (Except.ok (applyBatch s b) : Except IndexError IndexStoreTables) =
      Except.ok s' := h
    injection h' with h'
    show (Except.ok (applyBatch s' b) : Except IndexError IndexStoreTables) = Except.ok s'
    rw [← h', applyBatch_idem]

theorem rest_index_c3_witness :
    emptyTables.index_checkpoint ckA = .ok sA ∧ sA.index_checkpoint ckA = .ok sA :=
  ⟨by decide, rest_index_c3_idempotent emptyTables sA ckA (by decide)⟩

/-- C6: pruning postcondition.  A prune deletes exactly the digests contained
in the checkpoint contents passed in (every other digest's entry is
untouched), leaves the owner table completely unchanged, and re-pruning the
same contents (already-absent digests) is a no-op. -/
theorem rest_index_c6_prune_exact (s : IndexStoreTables) (cl : List CheckpointContents) :
    (s.prune cl).owner = s.owner ∧
    (∀ d : TransactionDigest, (s.prune cl).transactions.lookup d =
      if d ∈ catMapL id cl then none else s.transactions.lookup d) ∧
    (s.prune cl).prune cl = s.prune cl := by
  refine ⟨prune_owner s cl, fun d => prune_transactions_lookup s cl d, ?_⟩
  apply tablesExt
  · apply Finmap.ext_lookup
    intro d
    rw [prune_transactions_lookup, prune_transactions_lookup]
    by_cases hd : d ∈ catMapL id cl <;> simp [hd]
  · rw [prune_owner, prune_owner]

/-- C8: atomicity of checkpoint indexing.  All updates of a checkpoint are
staged into one batch committed by a single write: if the write fails (or
staging panics) the visible tables are unchanged, and on success the visible
state is exactly the whole batch applied at once, in particular every digest
of the checkpoint's contents is present with this checkpoint's sequence
number. -/
theorem rest_index_c8_atomicity (s : IndexStoreTables) (c : CheckpointData) :
    ((index_checkpoint_run false s c).2 = s) ∧
    (∀ writeOk : Bool, isOkE (index_checkpoint_run writeOk s c).1 = false →
      (index_checkpoint_run writeOk s c).2 = s) ∧
    (∀ s', s.index_checkpoint c = .ok s' →
      (index_checkpoint_run true s c).2 = s' ∧
      s' = applyBatch s ((indexCheckpointBatch c).getD []) ∧
      ∀ d ∈ c.checkpoint_contents,
        s'.transactions.lookup d = some ⟨c.checkpoint_summary.sequence_number⟩) := by
  refine ⟨?_, ?_, ?_⟩
  · rw [index_checkpoint_run]
    cases hB : indexCheckpointBatch c with
    | none => rfl
    | some b => rfl
  · intro writeOk hfail
    rw [index_checkpoint_run] at hfail ⊢
    cases hB : indexCheckpointBatch c with
    | none => rfl
    | some b =>
      rw [hB] at hfail
      cases writeOk with
      | true => exact Bool.noConfusion hfail
      | false => rfl
  · intro s' h
    rw [IndexStoreTables.index_checkpoint, index_checkpoint_run] at h
    cases hB : indexCheckpointBatch c with
    | none => rw [hB] at h; exact absurd h (by simp)
    | some b =>
      rw [hB] at h
      have h' : (Except.ok (applyBatch s b) : Except IndexError IndexStoreTables) =
        Except.ok s' := h
      injection h' with h
      refine ⟨?_, ?_, ?_⟩
      · rw [index_checkpoint_run, hB]
        exact h
      · rw [← h]
        rfl
      · intro d hd
        subst h
        rw [indexCheckpointBatch] at hB
        cases hm : mapOpt ownerOpsOfTxOp (ckptOps c) with
        | none => rw [hm] at hB; exact absurd hB (by simp)
        | some bss =>
          rw [hm] at hB
          injection hB with hB'
          subst hB'
          rw [applyBatch_transactions_lookup, batchTxEffect_append,
            batchTxEffect_of_ownerOps _ _ (mapOpt_ownerOps_isOwner (ckptOps c) bss hm),
            txInsertOps, batchTxEffect_insertList_mem _ _ _ hd]

theorem rest_index_c8_witness :
    ((index_checkpoint_run false emptyTables ckA).2 = emptyTables) ∧
    (isOkE (index_checkpoint_run false emptyTables ckA).1 = false →
      (index_checkpoint_run false emptyTables ckA).2 = emptyTables) ∧
    (emptyTables.index_checkpoint ckA = .ok sA ∧
      ((index_checkpoint_run true emptyTables ckA).2 = sA ∧
        sA = applyBatch emptyTables ((indexCheckpointBatch ckA).getD []) ∧
        ∀ d ∈ ckA.checkpoint_contents,
          sA.transactions.lookup d = some ⟨ckA.checkpoint_summary.sequence_number⟩)) := by
  refine ⟨(rest_index_c8_atomicity emptyTables ckA).1,
    (rest_index_c8_atomicity emptyTables ckA).2.1 false, by decide,
    (rest_index_c8_atomicity emptyTables ckA).2.2 sA (by decide)⟩

/-- C2: bootstrap equivalence.  Bootstrapping an empty index from the
live-object snapshot reached after checkpoints `[0..N]`, with transaction
backfill over a store holding exactly those checkpoints, produces the very
same owner-index and transaction-index contents as indexing the checkpoints
incrementally from an empty index. -/
theorem rest_index_c2_bootstrap_equiv (cs : List CheckpointData) (s_inc : IndexStoreTables)
    (snapshot : List Object)
    (hcons : ckptsConsistent ∅ cs = true)
    (hrun : runCkpts emptyTables cs = .ok s_inc)
    (hsnap1 : ∀ o ∈ snapshot, (replayCkpts ∅ cs).lookup o.id = some o)
    (hsnap2 : ∀ O ∈ (replayCkpts ∅ cs).keys, ∃ o, o ∈ snapshot ∧ o.id = O)
    (hnodup : (snapshot.map Object.id).Nodup)
    (hinj : (cs.map fun c => c.checkpoint_summary.content_digest).Nodup) :
    IndexStoreTables.init emptyTables snapshot (storeOfCkpts cs) = .ok s_inc := by
  obtain ⟨hinv, hwf⟩ := inv_run_from_empty cs s_inc hcons hrun
  have hb := backfill_storeOf cs hinj
  rw [init_eq emptyTables snapshot (storeOfCkpts cs) _ hb]
  have hmid_tx : (applyBatch emptyTables (catMapL txInsertOps cs)).transactions =
      (catMapL txInsertOps cs).foldl applyTxOp ∅ := by
    rw [applyBatch_transactions_eq_fold]
    rfl
  have hmid_own : (applyBatch emptyTables (catMapL txInsertOps cs)).owner =
      (∅ : OwnerTable) := by
    rw [applyBatch_owner_eq_fold, foldOwner_of_txOps _ _ (catMapL_txInsertOps_isTx cs)]
    rfl
  have hok := initOwnerLoop_isOk snapshot (applyBatch emptyTables (catMapL txInsertOps cs))
    (fun o ho a howner => (hwf o.id o (hsnap1 o ho)).2 a howner)
  cases hloop : initOwnerLoop (applyBatch emptyTables (catMapL txInsertOps cs)) snapshot with
  | error e => rw [hloop] at hok; exact absurd hok (by simp [isOkE])
  | ok s_boot =>
    have htx_inc : s_inc.transactions = (catMapL txInsertOps cs).foldl applyTxOp ∅ := by
      rw [runCkpts_transactions cs emptyTables s_inc hrun]
      rfl
    have htx : s_boot.transactions = s_inc.transactions := by
      rw [initOwnerLoop_transactions snapshot _ s_boot hloop, hmid_tx, htx_inc]
    have hown : s_boot.owner = s_inc.owner := by
      apply Finmap.ext_lookup
      intro key
      rw [initOwnerLoop_lookup snapshot _ s_boot hnodup hloop key, hinv key,
        ← snapshot_find_expected (replayCkpts ∅ cs) snapshot key hwf hsnap1 hsnap2,
        hmid_own]
      cases hf : snapshot.find? (fun o => decide (o.id = key.object_id ∧
          o.owner = Owner.AddressOwner key.owner)) with
      | some o => rfl
      | none => simp [Finmap.lookup_empty]
    rw [tablesExt htx hown]

theorem rest_index_c2_witness :
    ckptsConsistent ∅ [ckA] = true ∧
    runCkpts emptyTables [ckA] = .ok sA ∧
    (∀ o ∈ [objA], (replayCkpts ∅ [ckA]).lookup o.id = some o) ∧
    (∀ O ∈ (replayCkpts ∅ [ckA]).keys, ∃ o, o ∈ [objA] ∧ o.id = O) ∧
    (([objA].map Object.id).Nodup) ∧
    (([ckA].map fun c => c.checkpoint_summary.content_digest).Nodup) ∧
    IndexStoreTables.init emptyTables [objA] (storeOfCkpts [ckA]) = .ok sA :=
  ⟨by decide, by decide, by decide, by decide, by decide, by decide,
    rest_index_c2_bootstrap_equiv [ckA] sA [objA] (by decide) (by decide) (by decide)
      (by decide) (by decide) (by decide)⟩

theorem mapOpt_isSome (f : α → Option β) (l : List α)
    (h : ∀ a ∈ l, (f a).isSome = true) : (mapOpt f l).isSome = true := by
  induction l with
  | nil => rfl
  | cons a rest ih =>
    have ha := h a (List.mem_cons_self _ _)
    rw [mapOpt]
    cases hfa : f a with
    | none => rw [hfa] at ha; exact absurd ha (by simp)
    | some b =>
      have hr := ih fun a' ha' => h a' (List.mem_cons_of_mem _ ha')
      cases hrest : mapOpt f rest with
      | none => rw [hrest] at hr; exact absurd hr (by simp)
      | some bs => rfl

theorem new?_isSome (o : Object) : (OwnerIndexInfo.new? o).isSome = o.type_.isSome := by
  cases h : o.type_ <;> simp [OwnerIndexInfo.new?, h]

/-- Concrete checkpoint stores used by witnesses. -/
def st0Ex : CheckpointStore := ⟨none, 0, fun _ => none, fun _ => none⟩

def st1Ex : CheckpointStore := ⟨some 0, 0, fun _ => none, fun _ => none⟩

def st2Ex : CheckpointStore :=
  ⟨some 0, 0, fun seq => if seq = 0 then some ⟨0, 11⟩ else none,
    fun d => if d = 11 then some [100] else none⟩

/-- C7: bootstrap transaction backfill.  With no executed checkpoint the
backfill stages nothing and `init` leaves the transactions table unchanged;
a missing summary or contents in the retained range makes `init` fail with a
missing-data error at the first missing sequence number; and with all data
present (and the store returning correctly numbered summaries) the backfill
stages `digest → (seq)` for every digest in every retained checkpoint's
contents, written as one batch before the owner loop. -/
theorem rest_index_c7_init_backfill (store : CheckpointStore) (s : IndexStoreTables)
    (auth : AuthorityStore) :
    (store.highest_executed = none →
      backfillOps store (seqRange store) = .ok [] ∧
      ∀ s', s.init auth store = .ok s' → s'.transactions = s.transactions) ∧
    (∀ seq0, firstMissing store (seqRange store) = some seq0 →
      s.init auth store = .error (.missingData seq0)) ∧
    ((∀ seq cp, store.summary_of seq = some cp → cp.sequence_number = seq) →
      firstMissing store (seqRange store) = none →
      backfillOps store (seqRange store) = .ok (backfillSpecOps store) ∧
      s.init auth store = initOwnerLoop (applyBatch s (backfillSpecOps store)) auth) := by
  refine ⟨?_, ?_, ?_⟩
  · intro hn
    have hr : seqRange store = [] := by simp only [seqRange, hn]
    have hb : backfillOps store (seqRange store) = .ok [] := by rw [hr]; rfl
    refine ⟨hb, ?_⟩
    intro s' h
    rw [init_eq s auth store [] hb] at h
    exact initOwnerLoop_transactions auth (applyBatch s []) s' h
  · intro seq0 hf
    exact init_error s auth store _ (backfill_missing store (seqRange store) seq0 hf)
  · intro hwf hnone
    have hmiss := (firstMissing_none store (seqRange store)).mp hnone
    have hb := backfill_ok store (seqRange store) hmiss
    have heq : catMapL
        (fun seq =>
          match store.summary_of seq with
          | some cp =>
            match store.contents_of cp.content_digest with
            | some contents => contents.map fun d => BatchOp.insertTx d ⟨cp.sequence_number⟩
            | none => []
          | none => [])
        (seqRange store) = backfillSpecOps store := by
      rw [backfillSpecOps]
      apply catMapL_congr
      intro seq hseq
      cases hsum : store.summary_of seq with
      | none => rfl
      | some cp =>
        have hs := hwf seq cp hsum
        cases hcon : store.contents_of cp.content_digest with
        | none => simp [hcon]
        | some contents => simp [hcon, hs]
    rw [heq] at hb
    exact ⟨hb, init_eq s auth store _ hb⟩

theorem rest_index_c7_witness :
    (st0Ex.highest_executed = none ∧
      (backfillOps st0Ex (seqRange st0Ex) = .ok [] ∧
        (emptyTables.init [] st0Ex = .ok emptyTables →
          emptyTables.transactions = emptyTables.transactions))) ∧
    (firstMissing st1Ex (seqRange st1Ex) = some 0 ∧
      emptyTables.init [] st1Ex = .error (.missingData 0)) ∧
    (firstMissing st2Ex (seqRange st2Ex) = none ∧
      (backfillOps st2Ex (seqRange st2Ex) = .ok (backfillSpecOps st2Ex) ∧
        emptyTables.init [objA] st2Ex =
          initOwnerLoop (applyBatch emptyTables (backfillSpecOps st2Ex)) [objA])) := by
  have hwf2 : ∀ seq cp, st2Ex.summary_of seq = some cp → cp.sequence_number = seq := by
    intro seq cp h
    by_cases h0 : seq = 0
    · subst h0
      simp only [st2Ex, if_pos rfl] at h
      injection h with h
      rw [← h]
    · simp only [st2Ex, if_neg h0] at h
      exact absurd h (by simp)
  refine ⟨⟨rfl, ?_⟩, ⟨by decide, ?_⟩, ⟨by decide, ?_⟩⟩
  · have h1 := (rest_index_c7_init_backfill st0Ex emptyTables []).1 rfl
    exact ⟨h1.1, h1.2 emptyTables⟩
  · exact (rest_index_c7_init_backfill st1Ex emptyTables []).2.1 0 (by decide)
  · exact (rest_index_c7_init_backfill st2Ex emptyTables [objA]).2.2 hwf2 (by decide)

/-- C10: package-ownership panic.  Building an owner-index value panics
(modeled as `none`) exactly when the object has no Move type; staging a
changed object that is address-owned but typeless panics; and under the
precondition that every address-owned object carries a Move type, both
`index_checkpoint` and (given a successful backfill) `init` never hit the
panic branch. -/
theorem rest_index_c10_package_panic :
    (∀ object : Object, OwnerIndexInfo.new? object = none ↔ object.type_ = none) ∧
    (∀ (object : Object) (old_object : Option Object) (a : SuiAddress),
      object.owner = Owner.AddressOwner a → object.type_ = none →
      changedObjectOps object old_object = none) ∧
    (∀ c : CheckpointData,
      (∀ tx ∈ c.transactions, ∀ p ∈ tx.changed_objects, ∀ a : SuiAddress,
        (p.1 : Object).owner = Owner.AddressOwner a → (p.1 : Object).type_.isSome = true) →
      ∀ s : IndexStoreTables, isOkE (s.index_checkpoint c) = true) ∧
    (∀ (auth : AuthorityStore) (store : CheckpointStore) (s : IndexStoreTables)
        (ops : List BatchOp),
      backfillOps store (seqRange store) = .ok ops →
      (∀ o ∈ auth, ∀ a : SuiAddress, o.owner = Owner.AddressOwner a →
        o.type_.isSome = true) →
      isOkE (s.init auth store) = true) := by
  refine ⟨?_, ?_, ?_, ?_⟩
  · intro object
    cases h : object.type_ <;> simp [OwnerIndexInfo.new?, h]
  · intro object old_object a howner htype
    have hnew : OwnerIndexInfo.new? object = none := by
      rw [OwnerIndexInfo.new?, htype]
      rfl
    rw [changedObjectOps_eq, howner, hnew]
  · intro c hpre s
    have hsome : ∀ top ∈ ckptOps c, (ownerOpsOfTxOp top).isSome = true := by
      intro top htop
      rcases mem_catMapL.mp htop with ⟨tx, htx, hmem⟩
      rw [txOps] at hmem
      rcases List.mem_append.mp hmem with hr | hc
      · rcases List.mem_map.mp hr with ⟨o, -, rfl⟩
        rfl
      · rcases List.mem_map.mp hc with ⟨p, hp, rfl⟩
        rw [ownerOpsOfTxOp, changedObjectOps_eq]
        cases howner : (p.1 : Object).owner with
        | AddressOwner a =>
          have ht := hpre tx htx p hp a howner
          have := new?_isSome p.1
          rw [ht] at this
          cases hnew : OwnerIndexInfo.new? p.1 with
          | none => rw [hnew] at this; exact absurd this.symm (by simp)
          | some info => rfl
        | ObjectOwner o => rfl
        | Shared => rfl
        | Immutable => rfl
    have hbatch : (indexCheckpointBatch c).isSome = true := by
      rw [indexCheckpointBatch]
      have := mapOpt_isSome ownerOpsOfTxOp (ckptOps c) hsome
      cases hm : mapOpt ownerOpsOfTxOp (ckptOps c) with
      | none => rw [hm] at this; exact absurd this (by simp)
      | some bss => rfl
    rw [IndexStoreTables.index_checkpoint, index_checkpoint_run]
    cases hB : indexCheckpointBatch c with
    | none => rw [hB] at hbatch; exact absurd hbatch (by simp)
    | some b => rfl
  · intro auth store s ops hb hpre
    rw [init_eq s auth store ops hb]
    apply initOwnerLoop_isOk
    intro o ho a howner
    rw [new?_isSome]
    exact hpre o ho a howner

theorem rest_index_c10_witness :
    (OwnerIndexInfo.new? ⟨2, 1, none, .AddressOwner 5⟩ = none ↔
      (⟨2, 1, none, .AddressOwner 5⟩ : Object).type_ = none) ∧
    ((⟨2, 1, none, .AddressOwner 5⟩ : Object).owner = Owner.AddressOwner 5 ∧
      (⟨2, 1, none, .AddressOwner 5⟩ : Object).type_ = none ∧
      changedObjectOps ⟨2, 1, none, .AddressOwner 5⟩ none = none) ∧
    ((∀ tx ∈ ckA.transactions, ∀ p ∈ tx.changed_objects, ∀ a : SuiAddress,
        (p.1 : Object).owner = Owner.AddressOwner a →
          (p.1 : Object).type_.isSome = true) ∧
      isOkE (emptyTables.index_checkpoint ckA) = true) ∧
    (backfillOps st0Ex (seqRange st0Ex) = .ok [] ∧
      (∀ o ∈ [objA], ∀ a : SuiAddress, o.owner = Owner.AddressOwner a →
        o.type_.isSome = true) ∧
      isOkE (emptyTables.init [objA] st0Ex) = true) := by
  have hpre3 : ∀ tx ∈ ckA.transactions, ∀ p ∈ tx.changed_objects, ∀ a : SuiAddress,
      (p.1 : Object).owner = Owner.AddressOwner a → (p.1 : Object).type_.isSome = true := by
    intro tx htx p hp a howner
    have htx' : tx = txA := List.mem_singleton.mp htx
    subst htx'
    have hp' : p = (objA, none) := List.mem_singleton.mp hp
    subst hp'
    rfl
  have hpre4 : ∀ o ∈ [objA], ∀ a : SuiAddress, o.owner = Owner.AddressOwner a →
      o.type_.isSome = true := by
    intro o ho a howner
    have ho' : o = objA := List.mem_singleton.mp ho
    subst ho'
    rfl
  refine ⟨rest_index_c10_package_panic.1 ⟨2, 1, none, .AddressOwner 5⟩,
    ⟨rfl, rfl, rest_index_c10_package_panic.2.1 ⟨2, 1, none, .AddressOwner 5⟩ none 5
      rfl rfl⟩,
    ⟨hpre3, rest_index_c10_package_panic.2.2.1 ckA hpre3 emptyTables⟩,
    ⟨by decide, hpre4, rest_index_c10_package_panic.2.2.2 [objA] st0Ex emptyTables []
      (by decide) hpre4⟩⟩

/-- C9: asymmetric bootstrap guard.  `is_empty` is true exactly when the
transactions table is empty, ignoring the owner table; `new` runs `init`
exactly when `is_empty` holds (so a non-empty transaction index is treated as
already bootstrapped even with an empty owner index), and `new_without_init`
never runs `init`. -/
theorem rest_index_c9_bootstrap_guard :
    (∀ (tx : TransactionsTable) (own : OwnerTable),
      (IndexStoreTables.mk tx own).is_empty = decide (tx = ∅)) ∧
    (∀ (tx : TransactionsTable) (own : OwnerTable) (auth : AuthorityStore)
        (store : CheckpointStore), ¬ tx = ∅ →
      RestIndexStore.new ⟨tx, own⟩ auth store = .ok ⟨⟨tx, own⟩⟩) ∧
    (∀ (own : OwnerTable) (auth : AuthorityStore) (store : CheckpointStore),
      RestIndexStore.new ⟨∅, own⟩ auth store =
        (IndexStoreTables.init ⟨∅, own⟩ auth store).map RestIndexStore.mk) ∧
    (∀ t : IndexStoreTables, RestIndexStore.new_without_init t = ⟨t⟩) := by
  refine ⟨fun tx own => rfl, ?_, ?_, fun t => rfl⟩
  · intro tx own auth store h
    rw [RestIndexStore.new, if_neg]
    simp [IndexStoreTables.is_empty, h]
  · intro own auth store
    rw [RestIndexStore.new, if_pos]
    · cases hi : IndexStoreTables.init ⟨∅, own⟩ auth store <;> simp [Except.map]
    · simp [IndexStoreTables.is_empty]

/-- C1: owner-index correctness.  After applying a consistent sequence of
checkpoints from an empty index, the owner table holds an entry under key
`(A, O)` iff object `O` is live in the replayed state with current owner the
single address `A`, and the stored value is `O`'s current version and type. -/
theorem rest_index_c1_owner_index_correct (cs : List CheckpointData)
    (s' : IndexStoreTables)
    (hcons : ckptsConsistent ∅ cs = true)
    (hrun : runCkpts emptyTables cs = .ok s')
    (key : OwnerIndexKey) (info : OwnerIndexInfo) :
    s'.owner.lookup key = some info ↔
      ∃ obj, (replayCkpts ∅ cs).lookup key.object_id = some obj ∧
        obj.owner = Owner.AddressOwner key.owner ∧
        OwnerIndexInfo.new? obj = some info := by
  have hinv := (inv_run_from_empty cs s' hcons hrun).1
  rw [hinv key]
  exact expectedOwnerEntry_eq_some (replayCkpts ∅ cs) key info

theorem rest_index_c1_witness :
    ckptsConsistent ∅ [ckA] = true ∧
    runCkpts emptyTables [ckA] = .ok sA ∧
    (sA.owner.lookup ⟨5, 1⟩ = some ⟨1, 7⟩ ↔
      ∃ obj, (replayCkpts ∅ [ckA]).lookup 1 = some obj ∧
        obj.owner = Owner.AddressOwner 5 ∧
        OwnerIndexInfo.new? obj = some ⟨1, 7⟩) :=
  ⟨by decide, by decide,
    rest_index_c1_owner_index_correct [ckA] sA (by decide) (by decide) ⟨5, 1⟩ ⟨1, 7⟩⟩

/-- C4: single entry per object id.  In every state reachable by consistent
checkpoints from an empty index, at most one owner-table key exists per
object id; and the batch staged for an owner change contains the deletion of
the old `(old_owner, object_id)` entry together with (and before) the
insertion of the new one. -/
theorem rest_index_c4_single_entry (cs : List CheckpointData) (s' : IndexStoreTables)
    (hcons : ckptsConsistent ∅ cs = true)
    (hrun : runCkpts emptyTables cs = .ok s') :
    (∀ (O : ObjectID) (A1 A2 : SuiAddress) (i1 i2 : OwnerIndexInfo),
      s'.owner.lookup ⟨A1, O⟩ = some i1 → s'.owner.lookup ⟨A2, O⟩ = some i2 → A1 = A2) ∧
    (∀ (object old : Object) (a a' : SuiAddress) (info : OwnerIndexInfo),
      old.owner = Owner.AddressOwner a → object.owner = Owner.AddressOwner a' →
      ¬ old.owner = object.owner → OwnerIndexInfo.new? object = some info →
      changedObjectOps object (some old) =
        some [.deleteOwner (OwnerIndexKey.new a old.id),
          .insertOwner (OwnerIndexKey.new a' object.id) info]) := by
  constructor
  · intro O A1 A2 i1 i2 h1 h2
    have hinv := (inv_run_from_empty cs s' hcons hrun).1
    rw [hinv ⟨A1, O⟩, expectedOwnerEntry_eq_some] at h1
    rw [hinv ⟨A2, O⟩, expectedOwnerEntry_eq_some] at h2
    obtain ⟨obj1, hl1, ho1, -⟩ := h1
    obtain ⟨obj2, hl2, ho2, -⟩ := h2
    rw [hl1] at hl2
    injection hl2 with hl2
    rw [hl2] at ho1
    rw [ho1] at ho2
    injection ho2 with ho2
  · intro object old a a' info h1 h2 hne hnew
    have hdiff' : ¬ Owner.AddressOwner a = object.owner := h1 ▸ hne
    rw [changedObjectOps_eq, h2, hnew]
    simp [changedDeletes, h1, hdiff']

theorem rest_index_c4_witness :
    ckptsConsistent ∅ [ckA] = true ∧
    runCkpts emptyTables [ckA] = .ok sA ∧
    ((∀ (A1 A2 : SuiAddress) (i1 i2 : OwnerIndexInfo),
        sA.owner.lookup ⟨A1, 1⟩ = some i1 → sA.owner.lookup ⟨A2, 1⟩ = some i2 →
          A1 = A2) ∧
      (objA.owner = Owner.AddressOwner 5 →
        (⟨1, 2, some 7, Owner.AddressOwner 9⟩ : Object).owner = Owner.AddressOwner 9 →
        ¬ objA.owner = (⟨1, 2, some 7, Owner.AddressOwner 9⟩ : Object).owner →
        OwnerIndexInfo.new? ⟨1, 2, some 7, Owner.AddressOwner 9⟩ = some ⟨2, 7⟩ →
        changedObjectOps ⟨1, 2, some 7, Owner.AddressOwner 9⟩ (some objA) =
          some [.deleteOwner (OwnerIndexKey.new 5 objA.id),
            .insertOwner (OwnerIndexKey.new 9 1) ⟨2, 7⟩])) := by
  refine ⟨by decide, by decide, ?_, ?_⟩
  · intro A1 A2 i1 i2 h1 h2
    exact (rest_index_c4_single_entry [ckA] sA (by decide) (by decide)).1
      1 A1 A2 i1 i2 h1 h2
  · intro h1 h2 h3 h4
    exact (rest_index_c4_single_entry [ckA] sA (by decide) (by decide)).2
      ⟨1, 2, some 7, Owner.AddressOwner 9⟩ objA 5 9 ⟨2, 7⟩ h1 h2 h3 h4

/-- C5: ownership-kind exclusion.  In every reachable state an owner-table
key always points at a live object currently owned by exactly that address
(so object-owned, shared, and immutable objects never appear); the staged
changed-object operations insert owner keys only for address-owned objects;
removed-object handling never inserts; and the bootstrap loop changes the
owner table only at keys of address-owned snapshot objects. -/
theorem rest_index_c5_kind_exclusion (cs : List CheckpointData) (s' : IndexStoreTables)
    (hcons : ckptsConsistent ∅ cs = true)
    (hrun : runCkpts emptyTables cs = .ok s') :
    (∀ (key : OwnerIndexKey) (info : OwnerIndexInfo),
      s'.owner.lookup key = some info →
        ∃ obj, (replayCkpts ∅ cs).lookup key.object_id = some obj ∧
          obj.owner = Owner.AddressOwner key.owner) ∧
    (∀ (object : Object) (old_object : Option Object) (ops : List BatchOp),
      changedObjectOps object old_object = some ops →
      ∀ (k : OwnerIndexKey) (v : OwnerIndexInfo), BatchOp.insertOwner k v ∈ ops →
        object.owner = Owner.AddressOwner k.owner ∧ k.object_id = object.id) ∧
    (∀ (object : Object) (k : OwnerIndexKey) (v : OwnerIndexInfo),
      BatchOp.insertOwner k v ∉ removedObjectOps object) ∧
    (∀ (s0 s1 : IndexStoreTables) (objs : List Object) (key : OwnerIndexKey),
      initOwnerLoop s0 objs = .ok s1 →
      ¬ s1.owner.lookup key = s0.owner.lookup key →
      ∃ o, o ∈ objs ∧ o.owner = Owner.AddressOwner key.owner ∧
        o.id = key.object_id) := by
  refine ⟨?_, ?_, ?_, ?_⟩
  · intro key info h
    have hinv := (inv_run_from_empty cs s' hcons hrun).1
    rw [hinv key, expectedOwnerEntry_eq_some] at h
    obtain ⟨obj, hl, ho, -⟩ := h
    exact ⟨obj, hl, ho⟩
  · intro object old_object ops hops k v hmem
    rw [changedObjectOps_eq] at hops
    cases howner : object.owner with
    | AddressOwner aN =>
      rw [howner] at hops
      cases hnew : OwnerIndexInfo.new? object with
      | none => rw [hnew] at hops; exact absurd hops (by simp)
      | some info =>
        rw [hnew] at hops
        injection hops with hops
        subst hops
        rcases List.mem_append.mp hmem with hD | hI
        · exact absurd hD (changedDeletes_no_insert object old_object k v)
        · simp only [List.mem_singleton] at hI
          injection hI with hk hv
          subst hk
          exact ⟨rfl, rfl⟩
    | ObjectOwner o =>
      rw [howner] at hops
      injection hops with hops
      subst hops
      exact absurd hmem (changedDeletes_no_insert object old_object k v)
    | Shared =>
      rw [howner] at hops
      injection hops with hops
      subst hops
      exact absurd hmem (changedDeletes_no_insert object old_object k v)
    | Immutable =>
      rw [howner] at hops
      injection hops with hops
      subst hops
      exact absurd hmem (changedDeletes_no_insert object old_object k v)
  · intro object k v hmem
    rw [removedObjectOps] at hmem
    cases howner : object.owner <;> rw [howner] at hmem <;> simp at hmem
  · intro s0 s1 objs
    induction objs generalizing s0 with
    | nil =>
      intro key h hne
      rw [initOwnerLoop] at h
      injection h with h
      subst h
      exact absurd rfl hne
    | cons o rest ih =>
      intro key h hne
      rw [initOwnerLoop] at h
      cases howner : o.owner with
      | AddressOwner a =>
        rw [howner] at h
        cases hnew : OwnerIndexInfo.new? o with
        | none => rw [hnew] at h; exact absurd h (by simp)
        | some info =>
          rw [hnew] at h
          by_cases hmid : s1.owner.lookup key =
              (applyBatch s0 [.insertOwner (OwnerIndexKey.new a o.id) info]).owner.lookup key
          · have hkey : key = (⟨a, o.id⟩ : OwnerIndexKey) := by
              by_contra hk
              apply hne
              rw [hmid]
              show (s0.owner.insert ⟨a, o.id⟩ info).lookup key = s0.owner.lookup key
              rw [Finmap.lookup_insert_of_ne _ hk]
            exact ⟨o, List.mem_cons_self _ _, by rw [hkey, howner], by rw [hkey]⟩
          · obtain ⟨o', ho1, ho2, ho3⟩ := ih _ key h hmid
            exact ⟨o', List.mem_cons_of_mem _ ho1, ho2, ho3⟩
      | ObjectOwner x =>
        rw [howner] at h
        obtain ⟨o', ho1, ho2, ho3⟩ := ih _ key h hne
        exact ⟨o', List.mem_cons_of_mem _ ho1, ho2, ho3⟩
      | Shared =>
        rw [howner] at h
        obtain ⟨o', ho1, ho2, ho3⟩ := ih _ key h hne
        exact ⟨o', List.mem_cons_of_mem _ ho1, ho2, ho3⟩
      | Immutable =>
        rw [howner] at h
        obtain ⟨o', ho1, ho2, ho3⟩ := ih _ key h hne
        exact ⟨o', List.mem_cons_of_mem _ ho1, ho2, ho3⟩

theorem rest_index_c5_witness :
    ckptsConsistent ∅ [ckA] = true ∧
    runCkpts emptyTables [ckA] = .ok sA ∧
    ((sA.owner.lookup ⟨5, 1⟩ = some ⟨1, 7⟩ →
      ∃ obj, (replayCkpts ∅ [ckA]).lookup 1 = some obj ∧
        obj.owner = Owner.AddressOwner 5) ∧
    (∀ (k : OwnerIndexKey) (v : OwnerIndexInfo),
      BatchOp.insertOwner k v ∉ removedObjectOps objA)) := by
  refine ⟨by decide, by decide, ?_, ?_⟩
  · intro h
    exact (rest_index_c5_kind_exclusion [ckA] sA (by decide) (by decide)).1 ⟨5, 1⟩ ⟨1, 7⟩ h
  · intro k v
    exact (rest_index_c5_kind_exclusion [ckA] sA (by decide) (by decide)).2.2.1 objA k v

theorem rest_index_c9_witness :
    ((IndexStoreTables.mk sA.transactions ∅).is_empty = decide (sA.transactions = ∅)) ∧
    (¬ sA.transactions = ∅) ∧
    (∀ (auth : AuthorityStore) (store : CheckpointStore),
      RestIndexStore.new ⟨sA.transactions, ∅⟩ auth store = .ok ⟨⟨sA.transactions, ∅⟩⟩) ∧
    (∀ (auth : AuthorityStore) (store : CheckpointStore),
      RestIndexStore.new ⟨∅, sA.owner⟩ auth store =
        (IndexStoreTables.init ⟨∅, sA.owner⟩ auth store).map RestIndexStore.mk) ∧
    (RestIndexStore.new_without_init sA = ⟨sA⟩) :=
  ⟨rest_index_c9_bootstrap_guard.1 sA.transactions ∅, by decide,
    fun auth store => rest_index_c9_bootstrap_guard.2.1 sA.transactions ∅ auth store
      (by decide),
    fun auth store => rest_index_c9_bootstrap_guard.2.2.1 sA.owner auth store,
    rest_index_c9_bootstrap_guard.2.2.2 sA⟩

end RestIndex
